import Mathlib

/-!
Verification of the marker-driven morphological watershed specification
(`MorphologicalWatershedFromMarkersImageFilter`) of the Villin/watershed
repository.

The repository ships only the declaration header
`itkMorphologicalWatershedFromMarkersImageFilter.h`; the `.txx` file with the
body of `GenerateData` (the flood itself) is not part of the sources.  The
flood scheduler below is therefore modelled from the specification text
(sections 3, 4.1, 4.2, 6 and 7 of the design document), as noted on each
definition.  `splitCells.cxx` and the `SetFullyConnected` member of the header
are translated directly from the source.
-/

namespace Watershed

/-- A pixel coordinate: one integer per image axis (spec section 3,
"addressed by integer coordinate tuples"). -/
abbrev Coord := List Int

/-- Modelled from the spec: an n-dimensional image with a shape and a
row-major list of cell values (spec section 3, grid abstraction).  The cell
type is `Nat` for label images and `Int` is used separately for elevations. -/
structure Grid (α : Type) where
  shape : List Nat
  data : List α
deriving DecidableEq

/-- Negate every component of an offset vector. -/
def negC (o : Coord) : Coord := o.map (fun x => -x)

/-- Componentwise sum of a coordinate and an offset. -/
def addC (p o : Coord) : Coord := List.zipWith (fun a b => a + b) p o

/-- Modelled from the spec: bounds check, no wraparound and no padding
(spec section 4.1). -/
def inBoundsB : List Nat → Coord → Bool
  | [], [] => true
  | n :: sh, x :: c => decide (0 ≤ x) && decide (x < (n : Int)) && inBoundsB sh c
  | _, [] => false
  | [], _ => false

/-- Modelled from the spec: all coordinates of the grid, enumerated in
row-major raster order (spec section 4.2, fixed raster enumeration). -/
def allCoords : List Nat → List Coord
  | [] => [[]]
  | n :: sh => (List.range n).flatMap (fun i => (allCoords sh).map (fun c => ((i : Int)) :: c))

/-- All sign vectors of a given dimension, components in `{-1, 0, 1}`. -/
def signs : Nat → List Coord
  | 0 => [[]]
  | d + 1 =>
      ((signs d).map (fun c => ((-1 : Int)) :: c)) ++
      ((signs d).map (fun c => ((0 : Int)) :: c)) ++
      ((signs d).map (fun c => ((1 : Int)) :: c))

/-- Modelled from the spec: full connectivity, all `3^d - 1` offsets
excluding the zero vector (spec section 3). -/
def fullOffsets (d : Nat) : List Coord :=
  (signs d).filter (fun o => decide (o ≠ List.replicate d (0 : Int)))

/-- The axis-aligned unit vector of dimension `d` with value `v` at axis `i`. -/
def unitV (d : Nat) (i : Nat) (v : Int) : Coord :=
  (List.replicate d (0 : Int)).set i v

/-- Modelled from the spec: face connectivity, the `2 d` axis-aligned offsets
(spec section 3). -/
def faceOffsets (d : Nat) : List Coord :=
  (List.range d).flatMap (fun i => [unitV d i 1, unitV d i (-1)])

/-- The offset list selected by the fully-connected flag (spec section 3,
connectivity descriptor, immutable per run). -/
def offs (fc : Bool) (d : Nat) : List Coord :=
  if fc then fullOffsets d else faceOffsets d

/-- Modelled from the spec: in-bounds neighbor enumeration under the
configured connectivity; out-of-domain coordinates are omitted
(spec section 4.1, `Neighbors`). -/
def neighborsOf (fc : Bool) (sh : List Nat) (p : Coord) : List Coord :=
  (offs fc sh.length).filterMap
    (fun o => if inBoundsB sh (addC p o) then some (addC p o) else none)

theorem length_of_inBoundsB {sh : List Nat} {c : Coord} (h : inBoundsB sh c = true) :
    c.length = sh.length := by
  induction sh generalizing c with
  | nil => cases c with
    | nil => rfl
    | cons x t => simp [inBoundsB] at h
  | cons n sh ih => cases c with
    | nil => simp [inBoundsB] at h
    | cons x t =>
        simp only [inBoundsB, Bool.and_eq_true] at h
        simp [ih h.2]

theorem mem_allCoords {sh : List Nat} {c : Coord} :
    c ∈ allCoords sh ↔ inBoundsB sh c = true := by
  induction sh generalizing c with
  | nil =>
      cases c with
      | nil => simp [allCoords, inBoundsB]
      | cons x t => simp [allCoords, inBoundsB]
  | cons n sh ih =>
      cases c with
      | nil => simp [allCoords, inBoundsB]
      | cons x t =>
          simp only [allCoords, List.mem_flatMap, List.mem_map, List.mem_range, inBoundsB,
            Bool.and_eq_true, decide_eq_true_eq]
          constructor
          · rintro ⟨i, hi, c, hc, heq⟩
            cases heq
            exact ⟨⟨Int.natCast_nonneg i, by exact_mod_cast hi⟩, ih.mp hc⟩
          · rintro ⟨⟨hx0, hxn⟩, hc⟩
            refine ⟨x.toNat, ?_, t, ih.mpr hc, ?_⟩
            · omega
            · rw [Int.toNat_of_nonneg hx0]

theorem nodup_allCoords (sh : List Nat) : (allCoords sh).Nodup := by
  induction sh with
  | nil => simp [allCoords]
  | cons n sh ih =>
      simp only [allCoords]
      rw [List.nodup_flatMap]
      constructor
      · intro i _
        exact ih.map (fun a b h => by simpa using (List.cons_injective h))
      · refine (List.nodup_range n).imp ?_
        intro i j hij
        simp only [Function.onFun, List.Disjoint]
        rintro c hc₁ hc₂
        simp only [List.mem_map] at hc₁ hc₂
        obtain ⟨a, _, ha⟩ := hc₁
        obtain ⟨b, _, hb⟩ := hc₂
        rw [← ha] at hb
        apply hij
        have hh : ((j : Int)) = ((i : Int)) := by
          have := congrArg (fun l => List.head? l) hb
          simpa using this
        exact_mod_cast hh.symm

theorem mem_signs {d : Nat} {o : Coord} :
    o ∈ signs d ↔ o.length = d ∧ ∀ x ∈ o, x = -1 ∨ x = 0 ∨ x = 1 := by
  induction d generalizing o with
  | zero =>
      simp only [signs, List.mem_singleton]
      constructor
      · rintro rfl; simp
      · rintro ⟨h, _⟩; exact List.eq_nil_of_length_eq_zero h
  | succ d ih =>
      simp only [signs, List.mem_append, List.mem_map]
      constructor
      · rintro ((⟨c, hc, rfl⟩ | ⟨c, hc, rfl⟩) | ⟨c, hc, rfl⟩) <;>
          · obtain ⟨hlen, hall⟩ := ih.mp hc
            refine ⟨by simp [hlen], ?_⟩
            intro x hx
            rcases List.mem_cons.mp hx with rfl | hx
            · simp
            · exact hall x hx
      · rintro ⟨hlen, hall⟩
        cases o with
        | nil => simp at hlen
        | cons x c =>
            have hx := hall x (List.mem_cons_self x c)
            have hc : c ∈ signs d := ih.mpr ⟨by simpa using hlen,
              fun y hy => hall y (List.mem_cons_of_mem x hy)⟩
            rcases hx with rfl | rfl | rfl
            · exact Or.inl (Or.inl ⟨c, hc, rfl⟩)
            · exact Or.inl (Or.inr ⟨c, hc, rfl⟩)
            · exact Or.inr ⟨c, hc, rfl⟩

theorem negC_negC (o : Coord) : negC (negC o) = o := by
  simp [negC, List.map_map, Function.comp]

theorem length_negC (o : Coord) : (negC o).length = o.length := by
  simp [negC]

theorem negC_eq_replicate_zero {d : Nat} {o : Coord} :
    negC o = List.replicate d (0 : Int) ↔ o = List.replicate d (0 : Int) := by
  constructor
  · intro h
    have := congrArg negC h
    rw [negC_negC] at this
    simpa [negC, List.map_replicate] using this
  · rintro rfl
    simp [negC, List.map_replicate]

theorem mem_fullOffsets {d : Nat} {o : Coord} :
    o ∈ fullOffsets d ↔ o ∈ signs d ∧ o ≠ List.replicate d (0 : Int) := by
  simp [fullOffsets]

theorem negC_mem_signs {d : Nat} {o : Coord} (h : o ∈ signs d) : negC o ∈ signs d := by
  obtain ⟨hlen, hall⟩ := mem_signs.mp h
  refine mem_signs.mpr ⟨by simp [negC, hlen], ?_⟩
  intro x hx
  simp only [negC, List.mem_map] at hx
  obtain ⟨y, hy, rfl⟩ := hx
  rcases hall y hy with rfl | rfl | rfl <;> simp

theorem negC_mem_fullOffsets {d : Nat} {o : Coord} (h : o ∈ fullOffsets d) :
    negC o ∈ fullOffsets d := by
  obtain ⟨hs, hnz⟩ := mem_fullOffsets.mp h
  exact mem_fullOffsets.mpr ⟨negC_mem_signs hs,
    fun hc => hnz (negC_eq_replicate_zero.mp hc)⟩

theorem length_unitV (d i : Nat) (v : Int) : (unitV d i v).length = d := by
  simp [unitV]

theorem negC_unitV (d i : Nat) (v : Int) : negC (unitV d i v) = unitV d i (-v) := by
  simp [negC, unitV, List.map_set, List.map_replicate]

theorem mem_faceOffsets {d : Nat} {o : Coord} :
    o ∈ faceOffsets d ↔ ∃ i < d, o = unitV d i 1 ∨ o = unitV d i (-1) := by
  simp [faceOffsets, List.mem_flatMap]

theorem negC_mem_faceOffsets {d : Nat} {o : Coord} (h : o ∈ faceOffsets d) :
    negC o ∈ faceOffsets d := by
  obtain ⟨i, hi, h | h⟩ := mem_faceOffsets.mp h
  · subst h
    rw [negC_unitV]
    exact mem_faceOffsets.mpr ⟨i, hi, Or.inr rfl⟩
  · subst h
    rw [negC_unitV]
    refine mem_faceOffsets.mpr ⟨i, hi, Or.inl ?_⟩
    norm_num

theorem length_of_mem_signs {d : Nat} {o : Coord} (h : o ∈ signs d) : o.length = d :=
  (mem_signs.mp h).1

theorem length_of_mem_offs {fc : Bool} {d : Nat} {o : Coord} (h : o ∈ offs fc d) :
    o.length = d := by
  cases fc with
  | true =>
      simp only [offs, if_true] at h
      exact length_of_mem_signs (mem_fullOffsets.mp h).1
  | false =>
      simp only [offs, Bool.false_eq_true, if_false] at h
      obtain ⟨i, _, h | h⟩ := mem_faceOffsets.mp h <;> subst h <;> exact length_unitV ..

theorem negC_mem_offs {fc : Bool} {d : Nat} {o : Coord} (h : o ∈ offs fc d) :
    negC o ∈ offs fc d := by
  cases fc with
  | true =>
      simp only [offs, if_true] at h ⊢
      exact negC_mem_fullOffsets h
  | false =>
      simp only [offs, Bool.false_eq_true, if_false] at h ⊢
      exact negC_mem_faceOffsets h

theorem addC_negC {p o : Coord} (h : o.length = p.length) :
    addC (addC p o) (negC o) = p := by
  induction o generalizing p with
  | nil =>
      cases p with
      | nil => rfl
      | cons a q => simp at h
  | cons x t ih =>
      cases p with
      | nil => simp at h
      | cons a q =>
          simp only [addC, negC, List.zipWith, List.map]
          have h2 : t.length = q.length := by simpa using h
          have ht := ih h2
          simp only [addC, negC] at ht
          rw [ht]
          have hhead : a + x + -x = a := by ring
          rw [hhead]

theorem mem_neighborsOf {fc : Bool} {sh : List Nat} {p q : Coord} :
    q ∈ neighborsOf fc sh p ↔
      ∃ o ∈ offs fc sh.length, q = addC p o ∧ inBoundsB sh q = true := by
  simp only [neighborsOf, List.mem_filterMap]
  constructor
  · rintro ⟨o, ho, h⟩
    by_cases hb : inBoundsB sh (addC p o) = true
    · rw [if_pos hb] at h
      cases h
      exact ⟨o, ho, rfl, hb⟩
    · rw [if_neg hb] at h
      cases h
  · rintro ⟨o, ho, rfl, hb⟩
    exact ⟨o, ho, by rw [if_pos hb]⟩

theorem neighborsOf_subset_allCoords {fc : Bool} {sh : List Nat} {p q : Coord}
    (h : q ∈ neighborsOf fc sh p) : q ∈ allCoords sh := by
  obtain ⟨o, _, _, hb⟩ := mem_neighborsOf.mp h
  exact mem_allCoords.mpr hb

theorem neighborsOf_symm {fc : Bool} {sh : List Nat} {p q : Coord}
    (hp : inBoundsB sh p = true) (h : q ∈ neighborsOf fc sh p) :
    p ∈ neighborsOf fc sh q := by
  obtain ⟨o, ho, rfl, hb⟩ := mem_neighborsOf.mp h
  refine mem_neighborsOf.mpr ⟨negC o, negC_mem_offs ho, ?_, hp⟩
  rw [addC_negC (by rw [length_of_mem_offs ho, length_of_inBoundsB hp])]

/-- Pointwise update of a function over coordinates. -/
def updF {α : Type} (f : Coord → α) (a : Coord) (b : α) : Coord → α :=
  fun x => if x = a then b else f x

@[simp] theorem updF_same {α : Type} (f : Coord → α) (a : Coord) (b : α) :
    updF f a b a = b := by simp [updF]

theorem updF_ne {α : Type} (f : Coord → α) {a x : Coord} (b : α) (h : x ≠ a) :
    updF f a b x = f x := by simp [updF, h]

/-- Look a coordinate up in the parallel lists of raster-ordered coordinates
and cell values, with a default for missing cells. -/
def lookupC {α : Type} (d : α) : List Coord → List α → Coord → α
  | c :: cs, v :: vs, p => if p = c then v else lookupC d cs vs p
  | _, _, _ => d

/-- Modelled from the spec: the value of a label image at a coordinate
(spec section 3, label image addressed by coordinate tuples, row-major
raster linearization); coordinates outside the domain read as the
background value. -/
def valueAt (bg : Nat) (g : Grid Nat) (p : Coord) : Nat :=
  if inBoundsB g.shape p then lookupC bg (allCoords g.shape) g.data p else bg

/-- Modelled from the spec: the value of the elevation image at a coordinate
(spec section 3, elevation image, read-only). -/
def elevAt (g : Grid Int) (p : Coord) : Int :=
  if inBoundsB g.shape p then lookupC 0 (allCoords g.shape) g.data p else 0

/-- The raster rank of a coordinate, used to give seed pixels their
fixed raster labeling order. -/
def rasterOrd (l : List Coord) (p : Coord) : Nat :=
  l.findIdx (fun c => decide (c = p))

/-- Modelled from the spec: a priority-queue entry, a tuple of elevation
value, insertion sequence number and coordinate (spec section 3). -/
structure QEntry where
  elev : Int
  ctr : Nat
  pix : Coord
deriving DecidableEq

/-- Modelled from the spec: the per-pixel state machine of section 4.2. -/
inductive PixStatus where
  | unvisited
  | queued
  | labeled
  | background
deriving DecidableEq

/-- The run configuration: shape, connectivity flag, watershed-line flag,
background value and the (read-only) elevation image (spec section 6,
`Flood` signature; the spacing flag affects no required behavior and is
omitted). -/
structure Ctx where
  shape : List Nat
  fc : Bool
  ml : Bool
  bg : Nat
  elev : Grid Int

/-- Modelled from the spec: the transient flood state — label grid, per-pixel
status, priority queue, global insertion counter (spec sections 3 and 4.2).
`tick`/`ord` record the order in which pixels became labeled (used by the
first-arriving-flood tie-break of step 2c); `log` records the extraction
order and `everQ` whether a pixel was ever inserted into the queue (both are
observers that influence nothing). -/
structure FState where
  labels : Coord → Nat
  st : Coord → PixStatus
  queue : List QEntry
  ctr : Nat
  tick : Nat
  ord : Coord → Nat
  log : List QEntry
  everQ : Coord → Bool

/-- Strict lexicographic order on (elevation, insertion counter) keys
(spec section 3: elevation ascending primary, insertion number ascending
tie-break). -/
def keyLtB (a b : QEntry) : Bool :=
  decide (a.elev < b.elev) || (decide (a.elev = b.elev) && decide (a.ctr < b.ctr))

/-- The minimum of `b` and the entries of `t` under the strict
(elevation, insertion order) key. -/
def minFold (b : QEntry) (t : List QEntry) : QEntry :=
  t.foldl (fun b e => if keyLtB e b then e else b) b

/-- Modelled from the spec: extract the queue entry with the smallest
(elevation, insertion order) pair (spec section 4.2 step 2). -/
def selectMin : List QEntry → Option QEntry
  | [] => none
  | h :: t => some (minFold h t)

/-- Remove one queue entry (the first structural occurrence). -/
def removeEntry : List QEntry → QEntry → List QEntry
  | [], _ => []
  | h :: t, e => if h = e then t else h :: removeEntry t e

/-- Modelled from the spec: insert an unvisited pixel into the queue keyed by
its own elevation value and the next value of the monotonically increasing
global insertion counter, marking it `Queued`; a pixel already queued or
visited is not inserted again (spec section 4.2 steps 1 and 2d). -/
def enqueueNeighbor (ctx : Ctx) (s : FState) (q : Coord) : FState :=
  if s.st q = PixStatus.unvisited then
    { s with queue := s.queue ++ [⟨elevAt ctx.elev q, s.ctr, q⟩], ctr := s.ctr + 1,
             st := updF s.st q PixStatus.queued, everQ := updF s.everQ q true }
  else s

/-- Queue every still-unvisited neighbor of `p` (spec section 4.2 steps 1
and 2d). -/
def enqueueNbrs (ctx : Ctx) (s : FState) (p : Coord) : FState :=
  (neighborsOf ctx.fc ctx.shape p).foldl (enqueueNeighbor ctx) s

/-- Modelled from the spec, section 4.2 step 1: every pixel whose marker
value is not the background value starts `Labeled` with that value; seed
pixels are then enumerated in raster order and their unvisited neighbors
are queued.  `ord` gives seeds their raster rank as labeling order and
`tick` continues after them. -/
def initBase (ctx : Ctx) (m : Grid Nat) : FState :=
  { labels := fun p => valueAt ctx.bg m p,
    st := fun p => if valueAt ctx.bg m p = ctx.bg then PixStatus.unvisited else PixStatus.labeled,
    queue := [],
    ctr := 0,
    tick := (allCoords ctx.shape).length,
    ord := fun p => rasterOrd (allCoords ctx.shape) p,
    log := [],
    everQ := fun _ => false }

def initState (ctx : Ctx) (m : Grid Nat) : FState :=
  (allCoords ctx.shape).foldl
    (fun s p => if s.st p = PixStatus.labeled then enqueueNbrs ctx s p else s) (initBase ctx m)

/-- Among a nonempty list of coordinates, the one labeled earliest according
to `ordf` (spec section 4.2 step 2c, first-arriving flood); returns the empty
coordinate on an empty list, a case the drain loop never produces. -/
def minOrdCoord (ordf : Coord → Nat) : List Coord → Coord
  | [] => []
  | h :: t => t.foldl (fun b x => if ordf x < ordf b then x else b) h

/-- Drop one entry from the queue and append it to the extraction log. -/
def popEntry (s : FState) (e : QEntry) : FState :=
  { s with queue := removeEntry s.queue e, log := s.log ++ [e] }

/-- Transition a pixel to `Labeled` with label `l`, recording the labeling
order tick (spec section 4.2 steps 2b and 2c). -/
def applyLabel (s : FState) (p : Coord) (l : Nat) : FState :=
  { s with st := updF s.st p PixStatus.labeled,
           labels := updF s.labels p l,
           ord := updF s.ord p s.tick, tick := s.tick + 1 }

/-- Transition a pixel to `Background`, writing the background value
(spec section 4.2 step 2c with line-marking on). -/
def applyBg (ctx : Ctx) (s : FState) (p : Coord) : FState :=
  { s with st := updF s.st p PixStatus.background,
           labels := updF s.labels p ctx.bg }

/-- Modelled from the spec, section 4.2 step 2, processing of one extracted
entry: collect the distinct labels of already-`Labeled` neighbors; exactly
one label claims the pixel; several labels make it a watershed
(`Background`) when line-marking is on and otherwise give it the label of
the earliest-labeled neighbor; afterwards every still-unvisited neighbor is
queued (step 2d, unconditional in the spec).  The spec leaves the case of
an extracted pixel with no labeled neighbor open (it can arise only behind
already-drawn watershed lines); consistently with step 3 ("every pixel
reachable from at least one marker ends `Labeled` or `Background`") such a
pixel is completed as `Background`. -/
def processEntry (ctx : Ctx) (s : FState) (e : QEntry) : FState :=
  let p := e.pix
  let labNbrs :=
    (neighborsOf ctx.fc ctx.shape p).filter (fun q => decide (s.st q = PixStatus.labeled))
  let s2 : FState :=
    match (labNbrs.map s.labels).dedup with
    | [] => applyBg ctx (popEntry s e) p
    | [l] => applyLabel (popEntry s e) p l
    | _ :: _ :: _ =>
        if ctx.ml then applyBg ctx (popEntry s e) p
        else applyLabel (popEntry s e) p (s.labels (minOrdCoord s.ord labNbrs))
  enqueueNbrs ctx s2 p

/-- Modelled from the spec: one iteration of the drain loop — extract the
smallest entry and process it; `none` when the queue is empty
(spec section 4.2 steps 2 and 3). -/
def step (ctx : Ctx) (s : FState) : Option FState :=
  (selectMin s.queue).map (processEntry ctx s)

/-- Modelled from the spec: the drain loop, fueled; the fuel used by `Flood`
always suffices to empty the queue. -/
def drain (ctx : Ctx) : Nat → FState → FState
  | 0, s => s
  | n + 1, s =>
      match step ctx s with
      | none => s
      | some s2 => drain ctx n s2

/-- Read the final label grid back out of the flood state, raster order. -/
def extractGrid (ctx : Ctx) (s : FState) : Grid Nat :=
  ⟨ctx.shape, (allCoords ctx.shape).map s.labels⟩

/-- Modelled from the spec: validation error taxonomy (spec section 7).
The degenerate no-marker input follows the documented alternative policy of
returning an all-background output rather than a `NoMarkersError`. -/
inductive FloodErr where
  | shapeMismatch
  | configuration
deriving DecidableEq

deriving instance DecidableEq for Except

/-- Modelled from the spec: the core entry point (spec section 6) — validate
shapes (`ShapeMismatchError`), reject dimension zero (`ConfigurationError`),
then seed and drain.  Validation happens before any flooding; a marker image
with no non-background pixel floods nothing and yields an all-background
output (documented policy choice, spec section 7). -/
def Flood (elevG : Grid Int) (markers : Grid Nat) (fc ml : Bool) (bg : Nat) :
    Except FloodErr (Grid Nat) :=
  if markers.shape ≠ elevG.shape then Except.error FloodErr.shapeMismatch
  else if elevG.shape.length = 0 then Except.error FloodErr.configuration
  else
    let ctx : Ctx := ⟨elevG.shape, fc, ml, bg, elevG⟩
    let s0 := initState ctx markers
    Except.ok (extractGrid ctx (drain ctx (s0.queue.length + (allCoords ctx.shape).length) s0))

/-- Non-strict lexicographic order on (elevation, insertion counter) keys. -/
def keyLe (a b : QEntry) : Prop :=
  a.elev < b.elev ∨ (a.elev = b.elev ∧ a.ctr ≤ b.ctr)

theorem keyLtB_iff {a b : QEntry} :
    keyLtB a b = true ↔ (a.elev < b.elev ∨ (a.elev = b.elev ∧ a.ctr < b.ctr)) := by
  simp [keyLtB]

theorem keyLe_refl (a : QEntry) : keyLe a a := Or.inr ⟨rfl, Nat.le_refl _⟩

theorem keyLe_trans {a b c : QEntry} (h₁ : keyLe a b) (h₂ : keyLe b c) : keyLe a c := by
  rcases h₁ with h₁ | ⟨h₁, h₁c⟩ <;> rcases h₂ with h₂ | ⟨h₂, h₂c⟩
  · exact Or.inl (lt_trans h₁ h₂)
  · exact Or.inl (h₂ ▸ h₁)
  · exact Or.inl (h₁ ▸ h₂)
  · exact Or.inr ⟨h₁.trans h₂, h₁c.trans h₂c⟩

theorem keyLe_of_not_ltB {a b : QEntry} (h : ¬ keyLtB a b = true) : keyLe b a := by
  rw [keyLtB_iff] at h
  push_neg at h
  obtain ⟨h1, h2⟩ := h
  by_cases heq : a.elev = b.elev
  · exact Or.inr ⟨heq.symm, h2 heq⟩
  · exact Or.inl (lt_of_le_of_ne h1 (fun hc => heq hc.symm))

theorem keyLe_of_ltB {a b : QEntry} (h : keyLtB a b = true) : keyLe a b := by
  rw [keyLtB_iff] at h
  rcases h with h | ⟨h, hc⟩
  · exact Or.inl h
  · exact Or.inr ⟨h, Nat.le_of_lt hc⟩

theorem keyLe_antisymm_key {a b : QEntry} (h₁ : keyLe a b) (h₂ : keyLe b a) :
    a.elev = b.elev ∧ a.ctr = b.ctr := by
  rcases h₁ with h₁ | ⟨h₁, h₁c⟩ <;> rcases h₂ with h₂ | ⟨h₂, h₂c⟩ <;>
    first
    | exact absurd h₁ (by omega)
    | exact absurd h₂ (by omega)
    | exact ⟨by omega, by omega⟩

theorem minFold_mem (t : List QEntry) (b : QEntry) :
    minFold b t = b ∨ minFold b t ∈ t := by
  induction t generalizing b with
  | nil => exact Or.inl rfl
  | cons h t ih =>
      simp only [minFold, List.foldl_cons]
      by_cases hlt : keyLtB h b = true
      · rw [if_pos hlt]
        rcases ih h with h' | h'
        · exact Or.inr (List.mem_cons.mpr (Or.inl h'))
        · exact Or.inr (List.mem_cons.mpr (Or.inr h'))
      · rw [if_neg hlt]
        rcases ih b with h' | h'
        · exact Or.inl h'
        · exact Or.inr (List.mem_cons.mpr (Or.inr h'))

theorem minFold_le_init (t : List QEntry) (b : QEntry) : keyLe (minFold b t) b := by
  induction t generalizing b with
  | nil => exact keyLe_refl b
  | cons h t ih =>
      simp only [minFold, List.foldl_cons]
      by_cases hlt : keyLtB h b = true
      · rw [if_pos hlt]
        exact keyLe_trans (ih h) (keyLe_of_ltB hlt)
      · rw [if_neg hlt]
        exact ih b

theorem minFold_le_mem (t : List QEntry) (b : QEntry) {f : QEntry} (hf : f ∈ t) :
    keyLe (minFold b t) f := by
  induction t generalizing b with
  | nil => cases hf
  | cons h t ih =>
      simp only [minFold, List.foldl_cons]
      rcases List.mem_cons.mp hf with rfl | hf
      · by_cases hlt : keyLtB f b = true
        · rw [if_pos hlt]
          exact minFold_le_init t f
        · rw [if_neg hlt]
          exact keyLe_trans (minFold_le_init t b) (keyLe_of_not_ltB hlt)
      · by_cases hlt : keyLtB h b = true
        · rw [if_pos hlt]
          exact ih h hf
        · rw [if_neg hlt]
          exact ih b hf

/-- The extracted entry is a member of the queue and minimal for the
(elevation, insertion order) key. -/
def IsMinEntry (q : List QEntry) (e : QEntry) : Prop :=
  e ∈ q ∧ ∀ f ∈ q, keyLe e f

theorem selectMin_spec {q : List QEntry} {e : QEntry} (h : selectMin q = some e) :
    IsMinEntry q e := by
  cases q with
  | nil => cases h
  | cons h' t =>
      simp only [selectMin, Option.some.injEq] at h
      subst h
      constructor
      · rcases minFold_mem t h' with hm | hm
        · rw [hm]; exact List.mem_cons_self _ _
        · exact List.mem_cons_of_mem _ hm
      · intro f hf
        rcases List.mem_cons.mp hf with rfl | hf
        · exact minFold_le_init t f
        · exact minFold_le_mem t h' hf

theorem selectMin_eq_none {q : List QEntry} : selectMin q = none ↔ q = [] := by
  cases q <;> simp [selectMin]

theorem removeEntry_sublist (q : List QEntry) (e : QEntry) :
    (removeEntry q e).Sublist q := by
  induction q with
  | nil => simp [removeEntry]
  | cons h t ih =>
      simp only [removeEntry]
      by_cases he : h = e
      · rw [if_pos he]
        exact (List.sublist_cons_self h t)
      · rw [if_neg he]
        exact ih.cons₂ h

theorem mem_of_mem_removeEntry {q : List QEntry} {e f : QEntry}
    (h : f ∈ removeEntry q e) : f ∈ q :=
  (removeEntry_sublist q e).subset h

theorem mem_removeEntry_of_ne {q : List QEntry} {e f : QEntry}
    (hf : f ∈ q) (hne : f ≠ e) : f ∈ removeEntry q e := by
  induction q with
  | nil => cases hf
  | cons h t ih =>
      simp only [removeEntry]
      by_cases he : h = e
      · rw [if_pos he]
        rcases List.mem_cons.mp hf with rfl | hf
        · exact absurd he hne
        · exact hf
      · rw [if_neg he]
        rcases List.mem_cons.mp hf with rfl | hf
        · exact List.mem_cons_self _ _
        · exact List.mem_cons_of_mem _ (ih hf)

theorem length_removeEntry_of_mem {q : List QEntry} {e : QEntry} (h : e ∈ q) :
    (removeEntry q e).length + 1 = q.length := by
  induction q with
  | nil => cases h
  | cons h' t ih =>
      simp only [removeEntry]
      by_cases he : h' = e
      · rw [if_pos he]; rfl
      · rw [if_neg he]
        rcases List.mem_cons.mp h with rfl | hm
        · exact absurd rfl he
        · simpa using ih hm

theorem not_mem_removeEntry_of_nodup {q : List QEntry} {e : QEntry}
    (hq : q.Nodup) : e ∉ removeEntry q e := by
  induction q with
  | nil => simp [removeEntry]
  | cons h t ih =>
      simp only [removeEntry]
      by_cases he : h = e
      · rw [if_pos he]
        subst he
        exact (List.nodup_cons.mp hq).1
      · rw [if_neg he]
        intro hc
        rcases List.mem_cons.mp hc with rfl | hc
        · exact he rfl
        · exact ih (List.nodup_cons.mp hq).2 hc

theorem pairwise_ctr_inj {q : List QEntry} (hq : q.Pairwise (fun a b => a.ctr ≠ b.ctr))
    {e f : QEntry} (he : e ∈ q) (hf : f ∈ q) (hc : e.ctr = f.ctr) : e = f := by
  induction q with
  | nil => cases he
  | cons h t ih =>
      obtain ⟨hh, ht⟩ := List.pairwise_cons.mp hq
      rcases List.mem_cons.mp he with rfl | he'
      · rcases List.mem_cons.mp hf with rfl | hf'
        · rfl
        · exact absurd hc (hh f hf')
      · rcases List.mem_cons.mp hf with rfl | hf'
        · exact absurd hc.symm (hh e he')
        · exact ih ht he' hf'

theorem nodup_of_pairwise_ctr {q : List QEntry}
    (hq : q.Pairwise (fun a b => a.ctr ≠ b.ctr)) : q.Nodup :=
  hq.imp (fun h hc => h (by rw [hc]))

theorem isMinEntry_unique {q : List QEntry}
    (hq : q.Pairwise (fun a b => a.ctr ≠ b.ctr))
    {e f : QEntry} (he : IsMinEntry q e) (hf : IsMinEntry q f) : e = f := by
  have h₁ := he.2 f hf.1
  have h₂ := hf.2 e he.1
  exact pairwise_ctr_inj hq he.1 hf.1 (keyLe_antisymm_key h₁ h₂).2

theorem minOrdCoord_mem (ordf : Coord → Nat) {l : List Coord} (hl : l ≠ []) :
    minOrdCoord ordf l ∈ l := by
  cases l with
  | nil => exact absurd rfl hl
  | cons h t =>
      simp only [minOrdCoord]
      have : ∀ (t : List Coord) (b : Coord),
          t.foldl (fun b x => if ordf x < ordf b then x else b) b = b ∨
          t.foldl (fun b x => if ordf x < ordf b then x else b) b ∈ t := by
        intro t
        induction t with
        | nil => intro b; exact Or.inl rfl
        | cons h' t' ih =>
            intro b
            simp only [List.foldl_cons]
            by_cases hlt : ordf h' < ordf b
            · rw [if_pos hlt]
              rcases ih h' with h'' | h''
              · exact Or.inr (List.mem_cons.mpr (Or.inl h''))
              · exact Or.inr (List.mem_cons.mpr (Or.inr h''))
            · rw [if_neg hlt]
              rcases ih b with h'' | h''
              · exact Or.inl h''
              · exact Or.inr (List.mem_cons.mpr (Or.inr h''))
      rcases this t h with h' | h'
      · rw [h']; exact List.mem_cons_self _ _
      · exact List.mem_cons_of_mem _ h'

/-- Queue bookkeeping invariants: queue/status coherence, entries keyed by
their pixel's elevation with counters below the global counter, and pairwise
distinct counters and pixels (at most one insertion per pixel). -/
structure QInv (ctx : Ctx) (s : FState) : Prop where
  queued_iff : ∀ p, s.st p = PixStatus.queued ↔ ∃ e ∈ s.queue, e.pix = p
  q_elev : ∀ e ∈ s.queue,
      e.elev = elevAt ctx.elev e.pix ∧ e.ctr < s.ctr ∧ e.pix ∈ allCoords ctx.shape
  q_ctr : s.queue.Pairwise (fun a b => a.ctr ≠ b.ctr)
  q_pix : s.queue.Pairwise (fun a b => a.pix ≠ b.pix)

/-- The drain measure: queue length plus the number of unvisited in-bounds
pixels; every drain step decreases it by exactly one. -/
def qmu (ctx : Ctx) (s : FState) : Nat :=
  s.queue.length + (allCoords ctx.shape).countP (fun p => decide (s.st p = PixStatus.unvisited))

/-- What an enqueueing pass can do to the state: only statuses of unvisited
pixels change (to `Queued`), the queue only grows, labels and ordering data
are untouched. -/
structure EnqInv (ctx : Ctx) (s s' : FState) : Prop where
  labels_eq : s'.labels = s.labels
  ord_eq : s'.ord = s.ord
  tick_eq : s'.tick = s.tick
  log_eq : s'.log = s.log
  ctr_le : s.ctr ≤ s'.ctr
  st_old : ∀ p, s.st p ≠ PixStatus.unvisited → s'.st p = s.st p
  st_new : ∀ p, s'.st p ≠ s.st p → s.st p = PixStatus.unvisited ∧ s'.st p = PixStatus.queued
  q_old : ∀ e ∈ s.queue, e ∈ s'.queue
  q_new : ∀ e ∈ s'.queue, e ∈ s.queue ∨
      (e.elev = elevAt ctx.elev e.pix ∧ s.ctr ≤ e.ctr ∧ s'.st e.pix = PixStatus.queued)

theorem enqInv_refl (ctx : Ctx) (s : FState) : EnqInv ctx s s :=
  ⟨rfl, rfl, rfl, rfl, Nat.le_refl _, fun _ _ => rfl, fun p h => absurd rfl h,
    fun _ he => he, fun _ he => Or.inl he⟩

theorem enqInv_trans {ctx : Ctx} {s s' s'' : FState}
    (h₁ : EnqInv ctx s s') (h₂ : EnqInv ctx s' s'') : EnqInv ctx s s'' := by
  refine ⟨h₂.labels_eq.trans h₁.labels_eq, h₂.ord_eq.trans h₁.ord_eq,
    h₂.tick_eq.trans h₁.tick_eq, h₂.log_eq.trans h₁.log_eq,
    h₁.ctr_le.trans h₂.ctr_le, ?_, ?_, ?_, ?_⟩
  · intro p hp
    rw [h₂.st_old p (by rw [h₁.st_old p hp]; exact hp), h₁.st_old p hp]
  · intro p hp
    by_cases h12 : s''.st p = s'.st p
    · rw [h12] at hp ⊢
      exact h₁.st_new p hp
    · obtain ⟨ha, hb⟩ := h₂.st_new p h12
      constructor
      · by_contra hc
        rw [h₁.st_old p hc] at ha
        exact hc (by rw [ha])
      · exact hb
  · intro e he
    exact h₂.q_old e (h₁.q_old e he)
  · intro e he
    rcases h₂.q_new e he with he' | ⟨h1, h2, h3⟩
    · rcases h₁.q_new e he' with he'' | ⟨h1, h2, h3⟩
      · exact Or.inl he''
      · exact Or.inr ⟨h1, h2, by rw [h₂.st_old e.pix (by rw [h3]; simp)]; exact h3⟩
    · exact Or.inr ⟨h1, h₁.ctr_le.trans h2, h3⟩

theorem countP_updF_decr {l : List Coord} (hnd : l.Nodup) {p : Coord} (hp : p ∈ l)
    {f g : Coord → Bool} (hpt : f p = true) (hpf : g p = false)
    (hag : ∀ x, x ≠ p → g x = f x) : l.countP g + 1 = l.countP f := by
  induction l with
  | nil => cases hp
  | cons h t ih =>
      obtain ⟨hh, ht⟩ := List.nodup_cons.mp hnd
      rcases List.mem_cons.mp hp with rfl | hp'
      · have hcong : t.countP g = t.countP f := by
          refine List.countP_congr ?_
          intro x hx
          rw [hag x (fun hc => hh (hc ▸ hx))]
        rw [List.countP_cons, List.countP_cons, hpt, hpf, hcong]
        simp
      · rw [List.countP_cons, List.countP_cons, hag h (fun hc => hh (hc ▸ hp'))]
        have := ih ht hp'
        omega

theorem enqueueNeighbor_facts {ctx : Ctx} {s : FState} {q : Coord}
    (hq : q ∈ allCoords ctx.shape) (hs : QInv ctx s) :
    QInv ctx (enqueueNeighbor ctx s q) ∧ EnqInv ctx s (enqueueNeighbor ctx s q) ∧
    qmu ctx (enqueueNeighbor ctx s q) = qmu ctx s ∧
    (enqueueNeighbor ctx s q).st q ≠ PixStatus.unvisited ∧
    (∀ e ∈ (enqueueNeighbor ctx s q).queue, e ∈ s.queue ∨ e.pix = q) := by
  by_cases hu : s.st q = PixStatus.unvisited
  · have hqmem : ∀ e ∈ s.queue, e.pix ≠ q := by
      intro e he hc
      have hqs : s.st q = PixStatus.queued := (hs.queued_iff q).mpr ⟨e, he, hc⟩
      rw [hu] at hqs
      cases hqs
    have hres : enqueueNeighbor ctx s q =
        { labels := s.labels, st := updF s.st q PixStatus.queued,
          queue := s.queue ++ [⟨elevAt ctx.elev q, s.ctr, q⟩], ctr := s.ctr + 1,
          tick := s.tick, ord := s.ord, log := s.log,
          everQ := updF s.everQ q true } := by
      simp only [enqueueNeighbor, if_pos hu]
    have hst : (enqueueNeighbor ctx s q).st = updF s.st q PixStatus.queued := by rw [hres]
    have hqu : (enqueueNeighbor ctx s q).queue =
        s.queue ++ [⟨elevAt ctx.elev q, s.ctr, q⟩] := by rw [hres]
    have hctr2 : (enqueueNeighbor ctx s q).ctr = s.ctr + 1 := by rw [hres]
    have hlab : (enqueueNeighbor ctx s q).labels = s.labels := by rw [hres]
    have hord : (enqueueNeighbor ctx s q).ord = s.ord := by rw [hres]
    have htick : (enqueueNeighbor ctx s q).tick = s.tick := by rw [hres]
    have hlog : (enqueueNeighbor ctx s q).log = s.log := by rw [hres]
    refine ⟨⟨?_, ?_, ?_, ?_⟩,
      ⟨hlab, hord, htick, hlog, by rw [hctr2]; exact Nat.le_succ _, ?_, ?_, ?_, ?_⟩,
      ?_, ?_, ?_⟩
    · intro p
      rw [hst, hqu]
      by_cases hpq : p = q
      · subst hpq
        simp only [updF_same]
        constructor
        · intro _
          exact ⟨⟨elevAt ctx.elev p, s.ctr, p⟩, by simp, rfl⟩
        · intro _
          trivial
      · rw [updF_ne _ _ hpq, hs.queued_iff p]
        constructor
        · rintro ⟨e, he, rfl⟩
          exact ⟨e, by simp [he], rfl⟩
        · rintro ⟨e, he, rfl⟩
          rcases List.mem_append.mp he with he' | he'
          · exact ⟨e, he', rfl⟩
          · simp only [List.mem_singleton] at he'
            subst he'
            exact absurd rfl hpq
    · intro e he
      rw [hqu] at he
      rw [hctr2]
      rcases List.mem_append.mp he with he' | he'
      · obtain ⟨h1, h2, h3⟩ := hs.q_elev e he'
        exact ⟨h1, Nat.lt_succ_of_lt h2, h3⟩
      · simp only [List.mem_singleton] at he'
        subst he'
        exact ⟨rfl, Nat.lt_succ_self _, hq⟩
    · rw [hqu, List.pairwise_append]
      refine ⟨hs.q_ctr, List.pairwise_singleton _ _, ?_⟩
      intro e he f hf
      simp only [List.mem_singleton] at hf
      subst hf
      exact Nat.ne_of_lt (hs.q_elev e he).2.1
    · rw [hqu, List.pairwise_append]
      refine ⟨hs.q_pix, List.pairwise_singleton _ _, ?_⟩
      intro e he f hf
      simp only [List.mem_singleton] at hf
      subst hf
      exact hqmem e he
    · intro p hp
      rw [hst]
      exact updF_ne _ _ (fun hc => hp (hc ▸ hu))
    · intro p hp
      rw [hst] at hp ⊢
      by_cases hpq : p = q
      · subst hpq
        exact ⟨hu, by simp⟩
      · rw [updF_ne _ _ hpq] at hp
        exact absurd rfl hp
    · intro e he
      rw [hqu]
      simp [he]
    · intro e he
      rw [hqu] at he
      rw [hst]
      rcases List.mem_append.mp he with he' | he'
      · exact Or.inl he'
      · simp only [List.mem_singleton] at he'
        subst he'
        exact Or.inr ⟨rfl, Nat.le_refl _, by simp⟩
    · simp only [qmu, hqu, hst, List.length_append, List.length_singleton]
      have hcnt : (allCoords ctx.shape).countP
          (fun p => decide (updF s.st q PixStatus.queued p = PixStatus.unvisited)) + 1 =
          (allCoords ctx.shape).countP (fun p => decide (s.st p = PixStatus.unvisited)) := by
        refine countP_updF_decr (nodup_allCoords _) hq (by simp [hu]) (by simp) ?_
        intro x hx
        rw [updF_ne _ _ hx]
      omega
    · rw [hst]
      simp
    · intro e he
      rw [hqu] at he
      rcases List.mem_append.mp he with he' | he'
      · exact Or.inl he'
      · simp only [List.mem_singleton] at he'
        subst he'
        exact Or.inr rfl
  · have hres : enqueueNeighbor ctx s q = s := by
      simp only [enqueueNeighbor, if_neg hu]
    rw [hres]
    exact ⟨hs, enqInv_refl ctx s, rfl, fun hc => hu hc, fun e he => Or.inl he⟩



theorem pairwise_pix_inj {q : List QEntry} (hq : q.Pairwise (fun a b => a.pix ≠ b.pix))
    {e f : QEntry} (he : e ∈ q) (hf : f ∈ q) (hc : e.pix = f.pix) : e = f := by
  induction q with
  | nil => cases he
  | cons h t ih =>
      obtain ⟨hh, ht⟩ := List.pairwise_cons.mp hq
      rcases List.mem_cons.mp he with rfl | he'
      · rcases List.mem_cons.mp hf with rfl | hf'
        · rfl
        · exact absurd hc (hh f hf')
      · rcases List.mem_cons.mp hf with rfl | hf'
        · exact absurd hc.symm (hh e he')
        · exact ih ht he' hf'

theorem foldl_enqueue_facts {ctx : Ctx} :
    ∀ (L : List Coord) (s : FState), (∀ x ∈ L, x ∈ allCoords ctx.shape) → QInv ctx s →
    QInv ctx (L.foldl (enqueueNeighbor ctx) s) ∧
    EnqInv ctx s (L.foldl (enqueueNeighbor ctx) s) ∧
    qmu ctx (L.foldl (enqueueNeighbor ctx) s) = qmu ctx s ∧
    (∀ x ∈ L, (L.foldl (enqueueNeighbor ctx) s).st x ≠ PixStatus.unvisited) ∧
    (∀ e ∈ (L.foldl (enqueueNeighbor ctx) s).queue, e ∈ s.queue ∨ e.pix ∈ L) := by
  intro L
  induction L with
  | nil =>
      intro s _ hs
      exact ⟨hs, enqInv_refl ctx s, rfl, by simp, fun e he => Or.inl he⟩
  | cons q T ih =>
      intro s hL hs
      have hq : q ∈ allCoords ctx.shape := hL q (List.mem_cons_self _ _)
      obtain ⟨hQ1, hE1, hmu1, hst1, hqn1⟩ := enqueueNeighbor_facts hq hs
      have hLT : ∀ x ∈ T, x ∈ allCoords ctx.shape :=
        fun x hx => hL x (List.mem_cons_of_mem _ hx)
      obtain ⟨hQ2, hE2, hmu2, hst2, hqn2⟩ := ih (enqueueNeighbor ctx s q) hLT hQ1
      rw [List.foldl_cons]
      refine ⟨hQ2, enqInv_trans hE1 hE2, hmu2.trans hmu1, ?_, ?_⟩
      · intro x hx
        rcases List.mem_cons.mp hx with rfl | hx'
        · rw [hE2.st_old x hst1]
          exact hst1
        · exact hst2 x hx'
      · intro e he
        rcases hqn2 e he with he' | he'
        · rcases hqn1 e he' with he'' | he''
          · exact Or.inl he''
          · exact Or.inr (he'' ▸ List.mem_cons_self _ _)
        · exact Or.inr (List.mem_cons_of_mem _ he')

theorem enqueueNbrs_facts {ctx : Ctx} {s : FState} {p : Coord} (hs : QInv ctx s) :
    QInv ctx (enqueueNbrs ctx s p) ∧ EnqInv ctx s (enqueueNbrs ctx s p) ∧
    qmu ctx (enqueueNbrs ctx s p) = qmu ctx s ∧
    (∀ x ∈ neighborsOf ctx.fc ctx.shape p, (enqueueNbrs ctx s p).st x ≠ PixStatus.unvisited) ∧
    (∀ e ∈ (enqueueNbrs ctx s p).queue,
        e ∈ s.queue ∨ e.pix ∈ neighborsOf ctx.fc ctx.shape p) :=
  foldl_enqueue_facts (neighborsOf ctx.fc ctx.shape p) s
    (fun _ hx => neighborsOf_subset_allCoords hx) hs

/-- The full flood invariant, relative to the configuration and the marker
image the run started from.  It expresses: seed stability, provenance of
every label from a marker, background pixels carrying the background value,
unvisited and queued pixels still carrying their (background) marker value,
the frontier closure (no neighbor of a visited pixel is unvisited), the
collision invariant behind watershed lines, the guarantee that with
line-marking off every queued pixel has a labeled neighbor and no pixel is
`Background`, and that out-of-domain coordinates are never touched. -/
structure Inv (ctx : Ctx) (m : Grid Nat) (s : FState) : Prop where
  qinv : QInv ctx s
  seed : ∀ p, valueAt ctx.bg m p ≠ ctx.bg →
      s.st p = PixStatus.labeled ∧ s.labels p = valueAt ctx.bg m p
  lab_src : ∀ p, s.st p = PixStatus.labeled →
      s.labels p ≠ ctx.bg ∧ ∃ q ∈ allCoords ctx.shape, valueAt ctx.bg m q = s.labels p
  bg_lab : ∀ p, s.st p = PixStatus.background → s.labels p = ctx.bg
  unv_lab : ∀ p, s.st p = PixStatus.unvisited ∨ s.st p = PixStatus.queued →
      s.labels p = valueAt ctx.bg m p
  closure : ∀ p, s.st p = PixStatus.labeled ∨ s.st p = PixStatus.background →
      ∀ q ∈ neighborsOf ctx.fc ctx.shape p, s.st q ≠ PixStatus.unvisited
  collide : ctx.ml = true → ∀ p, s.st p = PixStatus.labeled → valueAt ctx.bg m p = ctx.bg →
      ∀ q ∈ neighborsOf ctx.fc ctx.shape p, s.st q = PixStatus.labeled →
      s.labels q = s.labels p
  q_nbr : ctx.ml = false → ∀ e ∈ s.queue,
      ∃ r ∈ neighborsOf ctx.fc ctx.shape e.pix, s.st r = PixStatus.labeled
  no_bg : ctx.ml = false → ∀ p, s.st p ≠ PixStatus.background
  outb : ∀ p, p ∉ allCoords ctx.shape → s.st p = PixStatus.unvisited

/-- What one drain step does to each pixel: nothing, queue an unvisited
pixel, or finish the extracted pixel (spec section 4.2 state machine). -/
structure StepFacts (ctx : Ctx) (s s' : FState) (e : QEntry) : Prop where
  log_eq : s'.log = s.log ++ [e]
  mu : qmu ctx s' + 1 = qmu ctx s
  forward : ∀ p, s'.st p = s.st p ∨
      (s.st p = PixStatus.unvisited ∧ s'.st p = PixStatus.queued) ∨
      (p = e.pix ∧ s.st p = PixStatus.queued ∧
        (s'.st p = PixStatus.labeled ∨ s'.st p = PixStatus.background))
  lab_keep : ∀ p, s.st p = PixStatus.labeled →
      s'.st p = PixStatus.labeled ∧ s'.labels p = s.labels p
  bg_keep : ∀ p, s.st p = PixStatus.background →
      s'.st p = PixStatus.background ∧ s'.labels p = s.labels p
  done : s'.st e.pix = PixStatus.labeled ∨ s'.st e.pix = PixStatus.background

/-- The invariant just after relabeling the extracted pixel and before its
neighbors are queued: all of `Inv` except the frontier closure of the pixel
`excl` itself. -/
structure CoreInv (ctx : Ctx) (m : Grid Nat) (s : FState) (excl : Coord) : Prop where
  qinv : QInv ctx s
  seed : ∀ p, valueAt ctx.bg m p ≠ ctx.bg →
      s.st p = PixStatus.labeled ∧ s.labels p = valueAt ctx.bg m p
  lab_src : ∀ p, s.st p = PixStatus.labeled →
      s.labels p ≠ ctx.bg ∧ ∃ q ∈ allCoords ctx.shape, valueAt ctx.bg m q = s.labels p
  bg_lab : ∀ p, s.st p = PixStatus.background → s.labels p = ctx.bg
  unv_lab : ∀ p, s.st p = PixStatus.unvisited ∨ s.st p = PixStatus.queued →
      s.labels p = valueAt ctx.bg m p
  closure_ex : ∀ p, p ≠ excl → s.st p = PixStatus.labeled ∨ s.st p = PixStatus.background →
      ∀ q ∈ neighborsOf ctx.fc ctx.shape p, s.st q ≠ PixStatus.unvisited
  collide : ctx.ml = true → ∀ p, s.st p = PixStatus.labeled → valueAt ctx.bg m p = ctx.bg →
      ∀ q ∈ neighborsOf ctx.fc ctx.shape p, s.st q = PixStatus.labeled →
      s.labels q = s.labels p
  q_nbr : ctx.ml = false → ∀ e ∈ s.queue,
      ∃ r ∈ neighborsOf ctx.fc ctx.shape e.pix, s.st r = PixStatus.labeled
  no_bg : ctx.ml = false → ∀ p, s.st p ≠ PixStatus.background
  outb : ∀ p, p ∉ allCoords ctx.shape → s.st p = PixStatus.unvisited

theorem st_of_enq_labeled {ctx : Ctx} {s2 s' : FState} (hE : EnqInv ctx s2 s')
    {q : Coord} (h : s'.st q = PixStatus.labeled) : s2.st q = PixStatus.labeled := by
  by_cases hc : s'.st q = s2.st q
  · rw [← hc]; exact h
  · obtain ⟨_, h2⟩ := hE.st_new q hc
    rw [h] at h2
    cases h2

theorem st_of_enq_bg {ctx : Ctx} {s2 s' : FState} (hE : EnqInv ctx s2 s')
    {q : Coord} (h : s'.st q = PixStatus.background) : s2.st q = PixStatus.background := by
  by_cases hc : s'.st q = s2.st q
  · rw [← hc]; exact h
  · obtain ⟨_, h2⟩ := hE.st_new q hc
    rw [h] at h2
    cases h2

theorem compose_inv {ctx : Ctx} {m : Grid Nat} {s2 : FState} {p : Coord}
    (hC : CoreInv ctx m s2 p) (hp : p ∈ allCoords ctx.shape)
    (hstp : s2.st p = PixStatus.labeled ∨ s2.st p = PixStatus.background)
    (hlabp : ctx.ml = false → s2.st p = PixStatus.labeled) :
    Inv ctx m (enqueueNbrs ctx s2 p) := by
  obtain ⟨hQ, hE, hmu, hcls, hqn⟩ := enqueueNbrs_facts (s := s2) (p := p) hC.qinv
  have hlabel_eq : ∀ q, (enqueueNbrs ctx s2 p).labels q = s2.labels q := by
    intro q; rw [hE.labels_eq]
  refine ⟨hQ, ?_, ?_, ?_, ?_, ?_, ?_, ?_, ?_, ?_⟩
  · intro q hq
    obtain ⟨h1, h2⟩ := hC.seed q hq
    refine ⟨?_, by rw [hlabel_eq, h2]⟩
    rw [hE.st_old q (by rw [h1]; simp), h1]
  · intro q hq
    have h2 := st_of_enq_labeled hE hq
    obtain ⟨h3, h4⟩ := hC.lab_src q h2
    rw [hlabel_eq]
    exact ⟨h3, h4⟩
  · intro q hq
    rw [hlabel_eq]
    exact hC.bg_lab q (st_of_enq_bg hE hq)
  · intro q hq
    rw [hlabel_eq]
    refine hC.unv_lab q ?_
    rcases hq with hq | hq
    · by_cases hc : (enqueueNbrs ctx s2 p).st q = s2.st q
      · rw [← hc]; exact Or.inl hq
      · obtain ⟨_, h2⟩ := hE.st_new q hc
        rw [hq] at h2
        cases h2
    · by_cases hc : (enqueueNbrs ctx s2 p).st q = s2.st q
      · rw [← hc]; exact Or.inr hq
      · exact Or.inl (hE.st_new q hc).1
  · intro r hr q hq
    intro hcq
    have h5 : s2.st q = PixStatus.unvisited := by
      by_cases hch : (enqueueNbrs ctx s2 p).st q = s2.st q
      · rw [← hch]; exact hcq
      · exact (hE.st_new q hch).1
    have h2 : s2.st r = PixStatus.labeled ∨ s2.st r = PixStatus.background := by
      rcases hr with hr | hr
      · exact Or.inl (st_of_enq_labeled hE hr)
      · exact Or.inr (st_of_enq_bg hE hr)
    by_cases hrp : r = p
    · subst hrp
      exact hcls q hq hcq
    · exact hC.closure_ex r hrp h2 q hq h5
  · intro hml r hlr hmr q hq hlq
    rw [hlabel_eq, hlabel_eq]
    exact hC.collide hml r (st_of_enq_labeled hE hlr) hmr q hq (st_of_enq_labeled hE hlq)
  · intro hml f hf
    rcases hqn f hf with hf' | hf'
    · obtain ⟨r, hr, hlab⟩ := hC.q_nbr hml f hf'
      refine ⟨r, hr, ?_⟩
      rw [hE.st_old r (by rw [hlab]; simp)]
      exact hlab
    · refine ⟨p, neighborsOf_symm (mem_allCoords.mp hp) hf', ?_⟩
      have h2 := hlabp hml
      rw [hE.st_old p (by rw [h2]; simp)]
      exact h2
  · intro hml q hq
    exact hC.no_bg hml q (st_of_enq_bg hE hq)
  · intro q hq
    by_contra hc
    by_cases hch : (enqueueNbrs ctx s2 p).st q = s2.st q
    · exact hc (by rw [hch]; exact hC.outb q hq)
    · obtain ⟨_, h2⟩ := hE.st_new q hch
      have h3 : ∃ f ∈ (enqueueNbrs ctx s2 p).queue, f.pix = q := (hQ.queued_iff q).mp h2
      obtain ⟨f, hf, rfl⟩ := h3
      exact hq (hQ.q_elev f hf).2.2

theorem qinv_pop_upd {ctx : Ctx} {s : FState} {e : QEntry} (hs : QInv ctx s)
    (hme : e ∈ s.queue) {X : PixStatus} (hX : X ≠ PixStatus.queued) {s2 : FState}
    (hst : s2.st = updF s.st e.pix X) (hqu : s2.queue = removeEntry s.queue e)
    (hctr : s2.ctr = s.ctr) : QInv ctx s2 := by
  refine ⟨?_, ?_, ?_, ?_⟩
  · intro q
    rw [hst, hqu]
    by_cases hqp : q = e.pix
    · subst hqp
      simp only [updF_same]
      constructor
      · intro h
        first
        | exact absurd h hX
        | exact absurd h.symm hX
      · rintro ⟨f, hf, hfp⟩
        have hfq := mem_of_mem_removeEntry hf
        have : f = e := pairwise_pix_inj hs.q_pix hfq hme hfp
        subst this
        exact absurd hf (not_mem_removeEntry_of_nodup (nodup_of_pairwise_ctr hs.q_ctr))
    · rw [updF_ne _ _ hqp, hs.queued_iff q]
      constructor
      · rintro ⟨f, hf, rfl⟩
        refine ⟨f, mem_removeEntry_of_ne hf ?_, rfl⟩
        intro hc
        subst hc
        exact hqp rfl
      · rintro ⟨f, hf, rfl⟩
        exact ⟨f, mem_of_mem_removeEntry hf, rfl⟩
  · intro f hf
    rw [hqu] at hf
    rw [hctr]
    exact hs.q_elev f (mem_of_mem_removeEntry hf)
  · rw [hqu]
    exact List.Pairwise.sublist (removeEntry_sublist _ _) hs.q_ctr
  · rw [hqu]
    exact List.Pairwise.sublist (removeEntry_sublist _ _) hs.q_pix

theorem applyBg_core {ctx : Ctx} {m : Grid Nat} {s : FState} {e : QEntry}
    (hInv : Inv ctx m s) (hme : e ∈ s.queue) (hml : ctx.ml = true) :
    CoreInv ctx m (applyBg ctx (popEntry s e) e.pix) e.pix := by
  have hpq : s.st e.pix = PixStatus.queued := (hInv.qinv.queued_iff e.pix).mpr ⟨e, hme, rfl⟩
  have hpA : e.pix ∈ allCoords ctx.shape := (hInv.qinv.q_elev e hme).2.2
  have hst : (applyBg ctx (popEntry s e) e.pix).st = updF s.st e.pix PixStatus.background := rfl
  have hlab : (applyBg ctx (popEntry s e) e.pix).labels = updF s.labels e.pix ctx.bg := rfl
  have hqu : (applyBg ctx (popEntry s e) e.pix).queue = removeEntry s.queue e := rfl
  refine ⟨qinv_pop_upd hInv.qinv hme (by simp) hst hqu rfl, ?_, ?_, ?_, ?_, ?_, ?_, ?_, ?_, ?_⟩
  · intro q hq
    obtain ⟨h1, h2⟩ := hInv.seed q hq
    have hqp : q ≠ e.pix := fun hc => by rw [hc, hpq] at h1; cases h1
    rw [hst, hlab, updF_ne _ _ hqp, updF_ne _ _ hqp]
    exact ⟨h1, h2⟩
  · intro q hq
    rw [hst] at hq
    have hqp : q ≠ e.pix := by
      intro hc
      rw [hc, updF_same] at hq
      cases hq
    rw [updF_ne _ _ hqp] at hq
    rw [hlab, updF_ne _ _ hqp]
    exact hInv.lab_src q hq
  · intro q hq
    rw [hst] at hq
    rw [hlab]
    by_cases hqp : q = e.pix
    · subst hqp
      simp
    · rw [updF_ne _ _ hqp] at hq
      rw [updF_ne _ _ hqp]
      exact hInv.bg_lab q hq
  · intro q hq
    rw [hst] at hq
    have hqp : q ≠ e.pix := by
      intro hc
      subst hc
      rw [updF_same] at hq
      rcases hq with hq | hq <;> cases hq
    rw [updF_ne _ _ hqp] at hq
    rw [hlab, updF_ne _ _ hqp]
    exact hInv.unv_lab q hq
  · intro r hrp hr q hq
    rw [hst] at hr ⊢
    rw [updF_ne _ _ hrp] at hr
    intro hcq
    by_cases hqp : q = e.pix
    · rw [hqp, updF_same] at hcq
      cases hcq
    · rw [updF_ne _ _ hqp] at hcq
      exact hInv.closure r hr q hq hcq
  · intro hml' r hlr hmr q hq hlq
    rw [hst] at hlr hlq
    rw [hlab]
    have hrp : r ≠ e.pix := by
      intro hc
      rw [hc, updF_same] at hlr
      cases hlr
    have hqp : q ≠ e.pix := by
      intro hc
      rw [hc, updF_same] at hlq
      cases hlq
    rw [updF_ne _ _ hrp] at hlr
    rw [updF_ne _ _ hqp] at hlq
    rw [updF_ne _ _ hrp, updF_ne _ _ hqp]
    exact hInv.collide hml' r hlr hmr q hq hlq
  · intro hml'
    rw [hml] at hml'
    cases hml'
  · intro hml'
    rw [hml] at hml'
    cases hml'
  · intro q hq
    rw [hst]
    have hqp : q ≠ e.pix := fun hc => hq (hc ▸ hpA)
    rw [updF_ne _ _ hqp]
    exact hInv.outb q hq

theorem applyLabel_core {ctx : Ctx} {m : Grid Nat} {s : FState} {e : QEntry} {l : Nat}
    (hInv : Inv ctx m s) (hme : e ∈ s.queue)
    (hex : ∃ q ∈ neighborsOf ctx.fc ctx.shape e.pix,
        s.st q = PixStatus.labeled ∧ s.labels q = l)
    (hall : ctx.ml = true → ∀ q ∈ neighborsOf ctx.fc ctx.shape e.pix,
        s.st q = PixStatus.labeled → s.labels q = l) :
    CoreInv ctx m (applyLabel (popEntry s e) e.pix l) e.pix := by
  have hpq : s.st e.pix = PixStatus.queued := (hInv.qinv.queued_iff e.pix).mpr ⟨e, hme, rfl⟩
  have hpA : e.pix ∈ allCoords ctx.shape := (hInv.qinv.q_elev e hme).2.2
  have hpin : inBoundsB ctx.shape e.pix = true := mem_allCoords.mp hpA
  have hst : (applyLabel (popEntry s e) e.pix l).st = updF s.st e.pix PixStatus.labeled := rfl
  have hlab : (applyLabel (popEntry s e) e.pix l).labels = updF s.labels e.pix l := rfl
  have hqu : (applyLabel (popEntry s e) e.pix l).queue = removeEntry s.queue e := rfl
  refine ⟨qinv_pop_upd hInv.qinv hme (by simp) hst hqu rfl, ?_, ?_, ?_, ?_, ?_, ?_, ?_, ?_, ?_⟩
  · intro q hq
    obtain ⟨h1, h2⟩ := hInv.seed q hq
    have hqp : q ≠ e.pix := fun hc => by rw [hc, hpq] at h1; cases h1
    rw [hst, hlab, updF_ne _ _ hqp, updF_ne _ _ hqp]
    exact ⟨h1, h2⟩
  · intro q hq
    rw [hst] at hq
    rw [hlab]
    by_cases hqp : q = e.pix
    · subst hqp
      rw [updF_same]
      obtain ⟨r, _, hr1, hr2⟩ := hex
      obtain ⟨h3, h4⟩ := hInv.lab_src r hr1
      rw [hr2] at h3 h4
      exact ⟨h3, h4⟩
    · rw [updF_ne _ _ hqp] at hq
      rw [updF_ne _ _ hqp]
      exact hInv.lab_src q hq
  · intro q hq
    rw [hst] at hq
    have hqp : q ≠ e.pix := by
      intro hc
      rw [hc, updF_same] at hq
      cases hq
    rw [updF_ne _ _ hqp] at hq
    rw [hlab, updF_ne _ _ hqp]
    exact hInv.bg_lab q hq
  · intro q hq
    rw [hst] at hq
    have hqp : q ≠ e.pix := by
      intro hc
      subst hc
      rw [updF_same] at hq
      rcases hq with hq | hq <;> cases hq
    rw [updF_ne _ _ hqp] at hq
    rw [hlab, updF_ne _ _ hqp]
    exact hInv.unv_lab q hq
  · intro r hrp hr q hq
    rw [hst] at hr ⊢
    rw [updF_ne _ _ hrp] at hr
    intro hcq
    by_cases hqp : q = e.pix
    · rw [hqp, updF_same] at hcq
      cases hcq
    · rw [updF_ne _ _ hqp] at hcq
      exact hInv.closure r hr q hq hcq
  · intro hml' r hlr hmr q hq hlq
    rw [hst] at hlr hlq
    rw [hlab]
    by_cases hrp : r = e.pix
    · subst hrp
      by_cases hqp : q = e.pix
      · subst hqp
        rfl
      · rw [updF_ne _ _ hqp] at hlq
        rw [updF_same, updF_ne _ _ hqp]
        exact hall hml' q hq hlq
    · rw [updF_ne _ _ hrp] at hlr
      by_cases hqp : q = e.pix
      · subst hqp
        rw [updF_same, updF_ne _ _ hrp]
        have hrA : r ∈ allCoords ctx.shape := by
          by_contra hc
          rw [hInv.outb r hc] at hlr
          cases hlr
        have hrn : r ∈ neighborsOf ctx.fc ctx.shape e.pix :=
          neighborsOf_symm (mem_allCoords.mp hrA) hq
        exact (hall hml' r hrn hlr).symm
      · rw [updF_ne _ _ hqp] at hlq
        rw [updF_ne _ _ hqp, updF_ne _ _ hrp]
        exact hInv.collide hml' r hlr hmr q hq hlq
  · intro hml f hf
    rw [hqu] at hf
    obtain ⟨r, hr, hlr⟩ := hInv.q_nbr hml f (mem_of_mem_removeEntry hf)
    refine ⟨r, hr, ?_⟩
    rw [hst]
    by_cases hrp : r = e.pix
    · rw [hrp, updF_same]
    · rw [updF_ne _ _ hrp]
      exact hlr
  · intro hml q
    rw [hst]
    by_cases hqp : q = e.pix
    · rw [hqp, updF_same]
      simp
    · rw [updF_ne _ _ hqp]
      exact hInv.no_bg hml q
  · intro q hq
    rw [hst]
    have hqp : q ≠ e.pix := fun hc => hq (hc ▸ hpA)
    rw [updF_ne _ _ hqp]
    exact hInv.outb q hq

theorem stepFacts_of {ctx : Ctx} {s s2 : FState} {e : QEntry} {X : PixStatus} {v : Nat}
    (hme : e ∈ s.queue) (hpq : s.st e.pix = PixStatus.queued)
    (hX : X = PixStatus.labeled ∨ X = PixStatus.background)
    (hst2 : s2.st = updF s.st e.pix X) (hlab2 : s2.labels = updF s.labels e.pix v)
    (hqu2 : s2.queue = removeEntry s.queue e) (hlog2 : s2.log = s.log ++ [e])
    (hQ : QInv ctx s2) :
    StepFacts ctx s (enqueueNbrs ctx s2 e.pix) e := by
  obtain ⟨hQ', hE, hmu, hcls, hqn⟩ := enqueueNbrs_facts (s := s2) (p := e.pix) hQ
  have hXunv : X ≠ PixStatus.unvisited := by
    rcases hX with rfl | rfl <;> simp
  have hs2p : s2.st e.pix = X := by rw [hst2, updF_same]
  refine ⟨?_, ?_, ?_, ?_, ?_, ?_⟩
  · rw [hE.log_eq, hlog2]
  · rw [hmu]
    have hlen : (removeEntry s.queue e).length + 1 = s.queue.length :=
      length_removeEntry_of_mem hme
    have hcnt : (allCoords ctx.shape).countP
        (fun x => decide (s2.st x = PixStatus.unvisited)) =
        (allCoords ctx.shape).countP (fun x => decide (s.st x = PixStatus.unvisited)) := by
      refine List.countP_congr ?_
      intro x _
      by_cases hxp : x = e.pix
      · subst hxp
        rw [hst2, updF_same, hpq]
        simp only [decide_eq_true_eq]
        constructor
        · intro hc; exact absurd hc hXunv
        · intro hc; cases hc
      · rw [hst2, updF_ne _ _ hxp]
    simp only [qmu, hqu2, hcnt]
    omega
  · intro p
    by_cases hpp : p = e.pix
    · subst hpp
      refine Or.inr (Or.inr ⟨rfl, hpq, ?_⟩)
      have hfin : (enqueueNbrs ctx s2 e.pix).st e.pix = X := by
        rw [hE.st_old e.pix (by rw [hs2p]; exact hXunv), hs2p]
      rcases hX with rfl | rfl
      · exact Or.inl hfin
      · exact Or.inr hfin
    · have hs2 : s2.st p = s.st p := by rw [hst2, updF_ne _ _ hpp]
      rcases (em ((enqueueNbrs ctx s2 e.pix).st p = s2.st p)) with hc | hc
      · exact Or.inl (by rw [hc, hs2])
      · obtain ⟨h1, h2⟩ := hE.st_new p hc
        exact Or.inr (Or.inl ⟨by rw [← hs2]; exact h1, h2⟩)
  · intro p hp
    have hpp : p ≠ e.pix := fun hc => by rw [hc, hpq] at hp; cases hp
    have hs2 : s2.st p = PixStatus.labeled := by rw [hst2, updF_ne _ _ hpp]; exact hp
    constructor
    · rw [hE.st_old p (by rw [hs2]; simp), hs2]
    · rw [hE.labels_eq, hlab2, updF_ne _ _ hpp]
  · intro p hp
    have hpp : p ≠ e.pix := fun hc => by rw [hc, hpq] at hp; cases hp
    have hs2 : s2.st p = PixStatus.background := by rw [hst2, updF_ne _ _ hpp]; exact hp
    constructor
    · rw [hE.st_old p (by rw [hs2]; simp), hs2]
    · rw [hE.labels_eq, hlab2, updF_ne _ _ hpp]
  · have : (enqueueNbrs ctx s2 e.pix).st e.pix = X := by
      rw [hE.st_old e.pix (by rw [hs2p]; exact hXunv), hs2p]
    rcases hX with rfl | rfl
    · exact Or.inl this
    · exact Or.inr this

theorem processEntry_spec {ctx : Ctx} {m : Grid Nat} {s : FState} {e : QEntry}
    (hInv : Inv ctx m s) (hme : e ∈ s.queue) :
    Inv ctx m (processEntry ctx s e) ∧ StepFacts ctx s (processEntry ctx s e) e := by
  have hpq : s.st e.pix = PixStatus.queued := (hInv.qinv.queued_iff e.pix).mpr ⟨e, hme, rfl⟩
  have hpA : e.pix ∈ allCoords ctx.shape := (hInv.qinv.q_elev e hme).2.2
  have hLBmem : ∀ q, q ∈ (neighborsOf ctx.fc ctx.shape e.pix).filter
      (fun q => decide (s.st q = PixStatus.labeled)) ↔
      q ∈ neighborsOf ctx.fc ctx.shape e.pix ∧ s.st q = PixStatus.labeled := by
    intro q
    simp [List.mem_filter]
  rcases hl : (((neighborsOf ctx.fc ctx.shape e.pix).filter
      (fun q => decide (s.st q = PixStatus.labeled))).map s.labels).dedup with _ | ⟨l, _ | ⟨l2, ls⟩⟩
  · -- no labeled neighbor: the pixel is completed as background
    have hLBnil : (neighborsOf ctx.fc ctx.shape e.pix).filter
        (fun q => decide (s.st q = PixStatus.labeled)) = [] := by
      have hmn := (List.dedup_eq_nil _).mp hl
      exact List.map_eq_nil.mp hmn
    have hpe : processEntry ctx s e = enqueueNbrs ctx (applyBg ctx (popEntry s e) e.pix) e.pix := by
      simp only [processEntry]
      rw [hl]
    rw [hpe]
    by_cases hml : ctx.ml = true
    · have hC := applyBg_core hInv hme hml
      refine ⟨compose_inv hC hpA (Or.inr (updF_same _ _ _))
        (fun hc => by rw [hml] at hc; cases hc), ?_⟩
      exact stepFacts_of hme hpq (Or.inr rfl) rfl rfl rfl rfl hC.qinv
    · exfalso
      have hmlf : ctx.ml = false := by
        cases hc : ctx.ml
        · rfl
        · exact absurd hc hml
      obtain ⟨r, hr, hlr⟩ := hInv.q_nbr hmlf e hme
      have : r ∈ (neighborsOf ctx.fc ctx.shape e.pix).filter
          (fun q => decide (s.st q = PixStatus.labeled)) := (hLBmem r).mpr ⟨hr, hlr⟩
      rw [hLBnil] at this
      cases this
  · -- exactly one distinct label claims the pixel
    have hex : ∃ q ∈ neighborsOf ctx.fc ctx.shape e.pix,
        s.st q = PixStatus.labeled ∧ s.labels q = l := by
      have hmem : l ∈ (((neighborsOf ctx.fc ctx.shape e.pix).filter
          (fun q => decide (s.st q = PixStatus.labeled))).map s.labels).dedup := by
        rw [hl]; exact List.mem_singleton.mpr rfl
      rw [List.mem_dedup, List.mem_map] at hmem
      obtain ⟨q, hq, rfl⟩ := hmem
      obtain ⟨hq1, hq2⟩ := (hLBmem q).mp hq
      exact ⟨q, hq1, hq2, rfl⟩
    have hall : ctx.ml = true → ∀ q ∈ neighborsOf ctx.fc ctx.shape e.pix,
        s.st q = PixStatus.labeled → s.labels q = l := by
      intro _ q hq hlq
      have hmem : s.labels q ∈ (((neighborsOf ctx.fc ctx.shape e.pix).filter
          (fun q => decide (s.st q = PixStatus.labeled))).map s.labels).dedup := by
        rw [List.mem_dedup, List.mem_map]
        exact ⟨q, (hLBmem q).mpr ⟨hq, hlq⟩, rfl⟩
      rw [hl] at hmem
      exact List.mem_singleton.mp hmem
    have hpe : processEntry ctx s e =
        enqueueNbrs ctx (applyLabel (popEntry s e) e.pix l) e.pix := by
      simp only [processEntry]
      rw [hl]
    rw [hpe]
    have hC := applyLabel_core hInv hme hex hall
    refine ⟨compose_inv hC hpA (Or.inl (updF_same _ _ _))
      (fun _ => updF_same _ _ _), ?_⟩
    exact stepFacts_of hme hpq (Or.inl rfl) rfl rfl rfl rfl hC.qinv
  · -- several distinct labels: watershed or first-arriving flood
    by_cases hml : ctx.ml = true
    · have hpe : processEntry ctx s e =
          enqueueNbrs ctx (applyBg ctx (popEntry s e) e.pix) e.pix := by
        simp only [processEntry]
        rw [hl]
        simp only [hml, if_true]
      rw [hpe]
      have hC := applyBg_core hInv hme hml
      refine ⟨compose_inv hC hpA (Or.inr (updF_same _ _ _))
        (fun hc => by rw [hml] at hc; cases hc), ?_⟩
      exact stepFacts_of hme hpq (Or.inr rfl) rfl rfl rfl rfl hC.qinv
    · have hmlf : ctx.ml = false := by
        cases hc : ctx.ml
        · rfl
        · exact absurd hc hml
      have hLBne : (neighborsOf ctx.fc ctx.shape e.pix).filter
          (fun q => decide (s.st q = PixStatus.labeled)) ≠ [] := by
        intro hc
        rw [hc] at hl
        simp [List.dedup_nil] at hl
      have hq0 : minOrdCoord s.ord ((neighborsOf ctx.fc ctx.shape e.pix).filter
          (fun q => decide (s.st q = PixStatus.labeled))) ∈
          (neighborsOf ctx.fc ctx.shape e.pix).filter
          (fun q => decide (s.st q = PixStatus.labeled)) := minOrdCoord_mem _ hLBne
      obtain ⟨hq01, hq02⟩ := (hLBmem _).mp hq0
      have hex : ∃ q ∈ neighborsOf ctx.fc ctx.shape e.pix,
          s.st q = PixStatus.labeled ∧ s.labels q =
            s.labels (minOrdCoord s.ord ((neighborsOf ctx.fc ctx.shape e.pix).filter
              (fun q => decide (s.st q = PixStatus.labeled)))) :=
        ⟨_, hq01, hq02, rfl⟩
      have hall : ctx.ml = true → ∀ q ∈ neighborsOf ctx.fc ctx.shape e.pix,
          s.st q = PixStatus.labeled → s.labels q =
            s.labels (minOrdCoord s.ord ((neighborsOf ctx.fc ctx.shape e.pix).filter
              (fun q => decide (s.st q = PixStatus.labeled)))) := by
        intro hc
        rw [hmlf] at hc
        cases hc
      have hpe : processEntry ctx s e =
          enqueueNbrs ctx (applyLabel (popEntry s e) e.pix
            (s.labels (minOrdCoord s.ord ((neighborsOf ctx.fc ctx.shape e.pix).filter
              (fun q => decide (s.st q = PixStatus.labeled)))))) e.pix := by
        simp only [processEntry]
        rw [hl]
        simp [hmlf]
      rw [hpe]
      have hC := applyLabel_core hInv hme hex hall
      refine ⟨compose_inv hC hpA (Or.inl (updF_same _ _ _))
        (fun _ => updF_same _ _ _), ?_⟩
      exact stepFacts_of hme hpq (Or.inl rfl) rfl rfl rfl rfl hC.qinv

/-- The invariant maintained while the initial seeding pass walks the grid:
statuses are still seed-labeled or queued, labels still equal the marker
values, nothing is background, and every queue entry neighbors a seed. -/
theorem st_unv_of_enq {ctx : Ctx} {s2 s' : FState} (hE : EnqInv ctx s2 s')
    {q : Coord} (h : s'.st q = PixStatus.unvisited) : s2.st q = PixStatus.unvisited := by
  by_cases hc : s'.st q = s2.st q
  · rw [← hc]; exact h
  · exact (hE.st_new q hc).1

structure InitP (ctx : Ctx) (m : Grid Nat) (s : FState) : Prop where
  qinv : QInv ctx s
  lab_iff : ∀ p, s.st p = PixStatus.labeled ↔ valueAt ctx.bg m p ≠ ctx.bg
  lab_eq : ∀ p, s.labels p = valueAt ctx.bg m p
  no_bg : ∀ p, s.st p ≠ PixStatus.background
  outb : ∀ p, p ∉ allCoords ctx.shape → s.st p = PixStatus.unvisited
  q_nbr : ∀ e ∈ s.queue, ∃ r ∈ neighborsOf ctx.fc ctx.shape e.pix, s.st r = PixStatus.labeled

theorem initP_enqueueNbrs {ctx : Ctx} {m : Grid Nat} {s : FState} {x : Coord}
    (hP : InitP ctx m s) (hx : x ∈ allCoords ctx.shape) (hlx : s.st x = PixStatus.labeled) :
    InitP ctx m (enqueueNbrs ctx s x) ∧ EnqInv ctx s (enqueueNbrs ctx s x) ∧
    (∀ q ∈ neighborsOf ctx.fc ctx.shape x,
        (enqueueNbrs ctx s x).st q ≠ PixStatus.unvisited) := by
  obtain ⟨hQ, hE, _, hcls, hqn⟩ := enqueueNbrs_facts (s := s) (p := x) hP.qinv
  have hst_lab : ∀ p, (enqueueNbrs ctx s x).st p = PixStatus.labeled ↔
      s.st p = PixStatus.labeled := by
    intro p
    constructor
    · intro h
      by_cases hc : (enqueueNbrs ctx s x).st p = s.st p
      · rw [← hc]; exact h
      · obtain ⟨_, h2⟩ := hE.st_new p hc
        rw [h] at h2
        cases h2
    · intro h
      rw [hE.st_old p (by rw [h]; simp)]
      exact h
  refine ⟨⟨hQ, ?_, ?_, ?_, ?_, ?_⟩, hE, hcls⟩
  · intro p
    rw [hst_lab p]
    exact hP.lab_iff p
  · intro p
    rw [hE.labels_eq]
    exact hP.lab_eq p
  · intro p hc
    by_cases hch : (enqueueNbrs ctx s x).st p = s.st p
    · rw [hch] at hc
      exact hP.no_bg p hc
    · obtain ⟨_, h2⟩ := hE.st_new p hch
      rw [hc] at h2
      cases h2
  · intro p hp
    by_cases hch : (enqueueNbrs ctx s x).st p = s.st p
    · rw [hch]
      exact hP.outb p hp
    · obtain ⟨_, h2⟩ := hE.st_new p hch
      obtain ⟨f, hf, rfl⟩ := (hQ.queued_iff p).mp h2
      exact absurd (hQ.q_elev f hf).2.2 hp
  · intro f hf
    rcases hqn f hf with hf' | hf'
    · obtain ⟨r, hr, hlr⟩ := hP.q_nbr f hf'
      exact ⟨r, hr, (hst_lab r).mpr hlr⟩
    · exact ⟨x, neighborsOf_symm (mem_allCoords.mp hx) hf', (hst_lab x).mpr hlx⟩

theorem init_fold {ctx : Ctx} {m : Grid Nat} :
    ∀ (L : List Coord) (s : FState), (∀ x ∈ L, x ∈ allCoords ctx.shape) → InitP ctx m s →
    InitP ctx m (L.foldl
      (fun s p => if s.st p = PixStatus.labeled then enqueueNbrs ctx s p else s) s) ∧
    EnqInv ctx s (L.foldl
      (fun s p => if s.st p = PixStatus.labeled then enqueueNbrs ctx s p else s) s) ∧
    (∀ p ∈ L, (L.foldl
        (fun s p => if s.st p = PixStatus.labeled then enqueueNbrs ctx s p else s) s).st p =
          PixStatus.labeled →
      ∀ q ∈ neighborsOf ctx.fc ctx.shape p,
        (L.foldl
          (fun s p => if s.st p = PixStatus.labeled then enqueueNbrs ctx s p else s) s).st q ≠
          PixStatus.unvisited) := by
  intro L
  induction L with
  | nil =>
      intro s _ hP
      exact ⟨hP, enqInv_refl ctx s, by simp⟩
  | cons x T ih =>
      intro s hL hP
      have hx : x ∈ allCoords ctx.shape := hL x (List.mem_cons_self _ _)
      have hLT : ∀ y ∈ T, y ∈ allCoords ctx.shape :=
        fun y hy => hL y (List.mem_cons_of_mem _ hy)
      rw [List.foldl_cons]
      by_cases hlx : s.st x = PixStatus.labeled
      · rw [if_pos hlx]
        obtain ⟨hP1, hE1, hcls1⟩ := initP_enqueueNbrs hP hx hlx
        obtain ⟨hP2, hE2, hcls2⟩ := ih (enqueueNbrs ctx s x) hLT hP1
        refine ⟨hP2, enqInv_trans hE1 hE2, ?_⟩
        intro p hp hlp q hq
        rcases List.mem_cons.mp hp with rfl | hp'
        · intro hc
          exact hcls1 q hq (st_unv_of_enq hE2 hc)
        · exact hcls2 p hp' hlp q hq
      · rw [if_neg hlx]
        obtain ⟨hP2, hE2, hcls2⟩ := ih s hLT hP
        refine ⟨hP2, hE2, ?_⟩
        intro p hp hlp q hq
        rcases List.mem_cons.mp hp with rfl | hp'
        · exact absurd (st_of_enq_labeled hE2 hlp) hlx
        · exact hcls2 p hp' hlp q hq

theorem valueAt_ne_bg_inb {bg : Nat} {m : Grid Nat} {p : Coord}
    (h : valueAt bg m p ≠ bg) : inBoundsB m.shape p = true := by
  by_contra hc
  rw [valueAt, if_neg hc] at h
  exact h rfl

theorem initState_inv {ctx : Ctx} {m : Grid Nat} (hmsh : m.shape = ctx.shape) :
    Inv ctx m (initState ctx m) ∧
    (∀ p, (initState ctx m).labels p = valueAt ctx.bg m p) ∧
    (∀ p, (initState ctx m).st p = PixStatus.labeled ↔ valueAt ctx.bg m p ≠ ctx.bg) ∧
    (∀ p, (initState ctx m).st p ≠ PixStatus.background) := by
  have hinb : ∀ p, valueAt ctx.bg m p ≠ ctx.bg → p ∈ allCoords ctx.shape := by
    intro p hp
    rw [mem_allCoords, ← hmsh]
    exact valueAt_ne_bg_inb hp
  have hinit_eq : initState ctx m = (allCoords ctx.shape).foldl
      (fun s p => if s.st p = PixStatus.labeled then enqueueNbrs ctx s p else s)
      ⟨fun p => valueAt ctx.bg m p,
       fun p => if valueAt ctx.bg m p = ctx.bg then PixStatus.unvisited else PixStatus.labeled,
       [], 0, (allCoords ctx.shape).length, fun p => rasterOrd (allCoords ctx.shape) p, [],
       fun _ => false⟩ := rfl
  have h0 : InitP ctx m
      ⟨fun p => valueAt ctx.bg m p,
       fun p => if valueAt ctx.bg m p = ctx.bg then PixStatus.unvisited else PixStatus.labeled,
       [], 0, (allCoords ctx.shape).length, fun p => rasterOrd (allCoords ctx.shape) p, [],
       fun _ => false⟩ := by
    refine ⟨⟨?_, ?_, ?_, ?_⟩, ?_, ?_, ?_, ?_, ?_⟩
    · intro p
      constructor
      · intro h
        by_cases hc : valueAt ctx.bg m p = ctx.bg
        · simp only [if_pos hc] at h
          cases h
        · simp only [if_neg hc] at h
          cases h
      · rintro ⟨e, he, _⟩
        cases he
    · intro e he
      cases he
    · exact List.Pairwise.nil
    · exact List.Pairwise.nil
    · intro p
      by_cases hc : valueAt ctx.bg m p = ctx.bg
      · simp only [if_pos hc]
        constructor
        · intro h; cases h
        · intro h; exact absurd hc h
      · simp only [if_neg hc]
        constructor
        · intro _; exact hc
        · intro _; trivial
    · intro p; rfl
    · intro p
      by_cases hc : valueAt ctx.bg m p = ctx.bg
      · simp only [if_pos hc]; simp
      · simp only [if_neg hc]; simp
    · intro p hp
      have hc : valueAt ctx.bg m p = ctx.bg := by
        by_contra hcc
        exact hp (hinb p hcc)
      show (if valueAt ctx.bg m p = ctx.bg then PixStatus.unvisited else PixStatus.labeled) =
        PixStatus.unvisited
      rw [if_pos hc]
    · intro e he
      cases he
  rw [hinit_eq]
  obtain ⟨hP, hE, hcls⟩ := init_fold (allCoords ctx.shape) _ (fun x hx => hx) h0
  have hlab_in : ∀ p, (((allCoords ctx.shape)).foldl
      (fun s p => if s.st p = PixStatus.labeled then enqueueNbrs ctx s p else s)
      ⟨fun p => valueAt ctx.bg m p,
       fun p => if valueAt ctx.bg m p = ctx.bg then PixStatus.unvisited else PixStatus.labeled,
       [], 0, (allCoords ctx.shape).length, fun p => rasterOrd (allCoords ctx.shape) p, [],
       fun _ => false⟩).st p = PixStatus.labeled → p ∈ allCoords ctx.shape := by
    intro p hp
    exact hinb p ((hP.lab_iff p).mp hp)
  refine ⟨⟨hP.qinv, ?_, ?_, ?_, ?_, ?_, ?_, fun _ => hP.q_nbr, fun _ => hP.no_bg, hP.outb⟩,
    hP.lab_eq, hP.lab_iff, hP.no_bg⟩
  · intro p hp
    exact ⟨(hP.lab_iff p).mpr hp, hP.lab_eq p⟩
  · intro p hp
    refine ⟨by rw [hP.lab_eq p]; exact (hP.lab_iff p).mp hp,
      p, hlab_in p hp, (hP.lab_eq p).symm⟩
  · intro p hp
    exact absurd hp (hP.no_bg p)
  · intro p _
    exact hP.lab_eq p
  · intro p hp q hq
    rcases hp with hp | hp
    · exact hcls p (hlab_in p hp) hp q hq
    · exact absurd hp (hP.no_bg p)
  · intro _ p hp hmp
    exact absurd ((hP.lab_iff p).mp hp) (fun hc => hc hmp)

/-- One drain transition of the scheduler. -/
def StepD (ctx : Ctx) (s s' : FState) : Prop := step ctx s = some s'

/-- Reachability along drain transitions. -/
def Reach (ctx : Ctx) : FState → FState → Prop := Relation.ReflTransGen (StepD ctx)

theorem stepD_elim {ctx : Ctx} {m : Grid Nat} {s s' : FState}
    (hInv : Inv ctx m s) (hst : StepD ctx s s') :
    Inv ctx m s' ∧ ∃ e, IsMinEntry s.queue e ∧ s' = processEntry ctx s e ∧
      StepFacts ctx s s' e := by
  rw [StepD, step] at hst
  cases hsel : selectMin s.queue with
  | none => rw [hsel] at hst; cases hst
  | some e =>
      rw [hsel] at hst
      have hst2 : processEntry ctx s e = s' := by simpa using hst
      have hmin := selectMin_spec hsel
      obtain ⟨hInv', hSF⟩ := processEntry_spec hInv hmin.1
      subst hst2
      exact ⟨hInv', e, hmin, rfl, hSF⟩

theorem reach_inv {ctx : Ctx} {m : Grid Nat} {s s' : FState}
    (hInv : Inv ctx m s) (hr : Reach ctx s s') : Inv ctx m s' := by
  induction hr with
  | refl => exact hInv
  | tail _ hst ih => exact (stepD_elim ih hst).1

theorem drain_reach (ctx : Ctx) : ∀ (n : Nat) (s : FState), Reach ctx s (drain ctx n s) := by
  intro n
  induction n with
  | zero => intro s; exact Relation.ReflTransGen.refl
  | succ n ih =>
      intro s
      rw [drain]
      cases hstep : step ctx s with
      | none => exact Relation.ReflTransGen.refl
      | some s2 =>
          exact Relation.ReflTransGen.head hstep (ih s2)

theorem drain_terminal {ctx : Ctx} {m : Grid Nat} :
    ∀ (n : Nat) (s : FState), Inv ctx m s → qmu ctx s ≤ n →
    (drain ctx n s).queue = [] ∧ Inv ctx m (drain ctx n s) := by
  intro n
  induction n with
  | zero =>
      intro s hInv hn
      have : s.queue.length = 0 := by
        rw [qmu] at hn
        omega
      exact ⟨List.length_eq_zero.mp this, hInv⟩
  | succ n ih =>
      intro s hInv hn
      rw [drain]
      cases hstep : step ctx s with
      | none =>
          rw [step] at hstep
          cases hsel : selectMin s.queue with
          | none => exact ⟨selectMin_eq_none.mp hsel, hInv⟩
          | some e => rw [hsel] at hstep; cases hstep
      | some s2 =>
          obtain ⟨hInv2, e, _, _, hSF⟩ := stepD_elim hInv hstep
          exact ih s2 hInv2 (by have := hSF.mu; omega)

theorem lookupC_map {α : Type} (d : α) (f : Coord → α) :
    ∀ (l : List Coord) (p : Coord), p ∈ l → lookupC d l (l.map f) p = f p := by
  intro l
  induction l with
  | nil => intro p hp; cases hp
  | cons c cs ih =>
      intro p hp
      simp only [List.map, lookupC]
      by_cases hc : p = c
      · rw [if_pos hc, hc]
      · rw [if_neg hc]
        rcases List.mem_cons.mp hp with rfl | hp'
        · exact absurd rfl hc
        · exact ih p hp'

theorem valueAt_extractGrid {ctx : Ctx} {s : FState} {p : Coord} (bg : Nat)
    (hp : p ∈ allCoords ctx.shape) : valueAt bg (extractGrid ctx s) p = s.labels p := by
  rw [valueAt, extractGrid]
  rw [if_pos (mem_allCoords.mp hp)]
  exact lookupC_map bg s.labels (allCoords ctx.shape) p hp

theorem labels_ne_bg_labeled {ctx : Ctx} {m : Grid Nat} {t : FState}
    (hInv : Inv ctx m t) (hq : t.queue = []) {p : Coord}
    (h : t.labels p ≠ ctx.bg) : t.st p = PixStatus.labeled := by
  cases hst : t.st p with
  | labeled => rfl
  | background => exact absurd (hInv.bg_lab p hst) h
  | unvisited =>
      exfalso
      have h1 := hInv.unv_lab p (Or.inl hst)
      have h2 : valueAt ctx.bg m p ≠ ctx.bg := by rw [← h1]; exact h
      have h3 := (hInv.seed p h2).1
      rw [hst] at h3
      cases h3
  | queued =>
      exfalso
      obtain ⟨e, he, _⟩ := (hInv.qinv.queued_iff p).mp hst
      rw [hq] at he
      cases he

theorem drain_empty {ctx : Ctx} : ∀ (n : Nat) (s : FState), s.queue = [] →
    drain ctx n s = s := by
  intro n
  induction n with
  | zero => intro s _; rfl
  | succ n _ =>
      intro s hs
      rw [drain, step, selectMin_eq_none.mpr hs]
      rfl

theorem enqueueNbrs_noop {ctx : Ctx} {s : FState} {p : Coord}
    (h : ∀ q ∈ neighborsOf ctx.fc ctx.shape p, s.st q ≠ PixStatus.unvisited) :
    enqueueNbrs ctx s p = s := by
  rw [enqueueNbrs]
  have hgen : ∀ (L : List Coord), (∀ q ∈ L, s.st q ≠ PixStatus.unvisited) →
      L.foldl (enqueueNeighbor ctx) s = s := by
    intro L
    induction L with
    | nil => intro _; rfl
    | cons x T ih =>
        intro hL
        rw [List.foldl_cons]
        have hx : enqueueNeighbor ctx s x = s := by
          rw [enqueueNeighbor, if_neg (hL x (List.mem_cons_self _ _))]
        rw [hx]
        exact ih (fun q hq => hL q (List.mem_cons_of_mem _ hq))
  exact hgen _ h

theorem initBase_st (ctx : Ctx) (m : Grid Nat) (p : Coord) :
    (initBase ctx m).st p =
      if valueAt ctx.bg m p = ctx.bg then PixStatus.unvisited else PixStatus.labeled := rfl

theorem initState_noop {ctx : Ctx} {m : Grid Nat}
    (h : ∀ p, valueAt ctx.bg m p ≠ ctx.bg →
      ∀ q ∈ neighborsOf ctx.fc ctx.shape p, valueAt ctx.bg m q ≠ ctx.bg) :
    initState ctx m = initBase ctx m := by
  rw [initState]
  have hgen : ∀ (L : List Coord),
      L.foldl (fun s p => if s.st p = PixStatus.labeled then enqueueNbrs ctx s p else s)
        (initBase ctx m) = initBase ctx m := by
    intro L
    induction L with
    | nil => rfl
    | cons x T ih =>
        rw [List.foldl_cons]
        by_cases hm : valueAt ctx.bg m x = ctx.bg
        · rw [if_neg (by rw [initBase_st, if_pos hm]; simp)]
          exact ih
        · rw [if_pos (by rw [initBase_st, if_neg hm])]
          have hno : enqueueNbrs ctx (initBase ctx m) x = initBase ctx m := by
            refine enqueueNbrs_noop ?_
            intro q hq
            rw [initBase_st, if_neg (h x hm q hq)]
            simp
          rw [hno]
          exact ih
  exact hgen _

theorem flood_ok_elim {elevG : Grid Int} {mk : Grid Nat} {fc ml : Bool} {bg : Nat}
    {out : Grid Nat} (h : Flood elevG mk fc ml bg = Except.ok out) :
    mk.shape = elevG.shape ∧ elevG.shape.length ≠ 0 ∧
    out = extractGrid ⟨elevG.shape, fc, ml, bg, elevG⟩
      (drain ⟨elevG.shape, fc, ml, bg, elevG⟩
        ((initState ⟨elevG.shape, fc, ml, bg, elevG⟩ mk).queue.length +
          (allCoords elevG.shape).length)
        (initState ⟨elevG.shape, fc, ml, bg, elevG⟩ mk)) := by
  rw [Flood] at h
  by_cases h1 : mk.shape ≠ elevG.shape
  · rw [if_pos h1] at h
    cases h
  · rw [if_neg h1] at h
    by_cases h2 : elevG.shape.length = 0
    · rw [if_pos h2] at h
      cases h
    · rw [if_neg h2] at h
      have h3 := Except.ok.inj h
      exact ⟨by rwa [not_not] at h1, h2, h3.symm⟩

theorem flood_terminal {elevG : Grid Int} {mk : Grid Nat} {fc ml : Bool} {bg : Nat}
    {out : Grid Nat} (h : Flood elevG mk fc ml bg = Except.ok out) :
    ∃ t : FState, out = extractGrid ⟨elevG.shape, fc, ml, bg, elevG⟩ t ∧
      Inv ⟨elevG.shape, fc, ml, bg, elevG⟩ mk t ∧ t.queue = [] ∧
      Reach ⟨elevG.shape, fc, ml, bg, elevG⟩
        (initState ⟨elevG.shape, fc, ml, bg, elevG⟩ mk) t ∧
      mk.shape = elevG.shape := by
  obtain ⟨hmsh, hdim, hout⟩ := flood_ok_elim h
  have hInv0 := (@initState_inv ⟨elevG.shape, fc, ml, bg, elevG⟩ mk hmsh).1
  have hfuel : qmu ⟨elevG.shape, fc, ml, bg, elevG⟩
      (initState ⟨elevG.shape, fc, ml, bg, elevG⟩ mk) ≤
      (initState ⟨elevG.shape, fc, ml, bg, elevG⟩ mk).queue.length +
        (allCoords elevG.shape).length := by
    have hsh : (⟨elevG.shape, fc, ml, bg, elevG⟩ : Ctx).shape = elevG.shape := rfl
    rw [qmu, hsh]
    have := List.countP_le_length
      (fun p => decide ((initState ⟨elevG.shape, fc, ml, bg, elevG⟩ mk).st p =
        PixStatus.unvisited)) (l := allCoords elevG.shape)
    omega
  obtain ⟨hqe, hInvT⟩ := drain_terminal _ _ hInv0 hfuel
  exact ⟨_, hout, hInvT, hqe, drain_reach _ _ _, hmsh⟩

/-- C1 (label conservation): for every elevation and marker image accepted by
`Flood`, the output grid has the shape of the inputs, and every
non-background label appearing in the output at some coordinate already
appears in the marker image at some coordinate. -/
theorem claim1_label_conservation (elevG : Grid Int) (mk : Grid Nat) (fc ml : Bool)
    (bg : Nat) (out : Grid Nat) (h : Flood elevG mk fc ml bg = Except.ok out) :
    out.shape = mk.shape ∧ out.shape = elevG.shape ∧
    ∀ p ∈ allCoords elevG.shape, valueAt bg out p ≠ bg →
      ∃ q ∈ allCoords elevG.shape, valueAt bg mk q = valueAt bg out p := by
  obtain ⟨t, hout, hInv, hq, _, hmsh⟩ := flood_terminal h
  subst hout
  refine ⟨by rw [hmsh]; rfl, rfl, ?_⟩
  intro p hp hne
  rw [valueAt_extractGrid bg hp] at hne ⊢
  have hlab := labels_ne_bg_labeled hInv hq hne
  obtain ⟨_, q, hqm, hqv⟩ := hInv.lab_src p hlab
  exact ⟨q, hqm, hqv⟩

theorem claim1_witness :
    Flood ⟨[1], [0]⟩ ⟨[1], [5]⟩ true false 0 = Except.ok ⟨[1], [5]⟩ ∧
    ((⟨[1], [5]⟩ : Grid Nat).shape = (⟨[1], [5]⟩ : Grid Nat).shape ∧
     (⟨[1], [5]⟩ : Grid Nat).shape = (⟨[1], [0]⟩ : Grid Int).shape ∧
     ∀ p ∈ allCoords (⟨[1], [0]⟩ : Grid Int).shape,
       valueAt 0 ⟨[1], [5]⟩ p ≠ 0 →
       ∃ q ∈ allCoords (⟨[1], [0]⟩ : Grid Int).shape,
         valueAt 0 (⟨[1], [5]⟩ : Grid Nat) q = valueAt 0 (⟨[1], [5]⟩ : Grid Nat) p) :=
  ⟨by decide, claim1_label_conservation ⟨[1], [0]⟩ ⟨[1], [5]⟩ true false 0 ⟨[1], [5]⟩ (by decide)⟩

/-- C2 (seed stability): every pixel whose marker value is non-background
keeps exactly that label at the same coordinate in the output of `Flood`. -/
theorem claim2_seed_stability (elevG : Grid Int) (mk : Grid Nat) (fc ml : Bool)
    (bg : Nat) (out : Grid Nat) (h : Flood elevG mk fc ml bg = Except.ok out) :
    ∀ p, valueAt bg mk p ≠ bg → valueAt bg out p = valueAt bg mk p := by
  obtain ⟨t, hout, hInv, _, _, hmsh⟩ := flood_terminal h
  subst hout
  intro p hp
  have hpA : p ∈ allCoords elevG.shape := by
    rw [mem_allCoords, ← hmsh]
    exact valueAt_ne_bg_inb hp
  rw [valueAt_extractGrid bg hpA]
  exact (hInv.seed p hp).2

theorem claim2_witness :
    Flood ⟨[1], [0]⟩ ⟨[1], [7]⟩ false true 0 = Except.ok ⟨[1], [7]⟩ ∧
    (∀ p, valueAt 0 (⟨[1], [7]⟩ : Grid Nat) p ≠ 0 →
      valueAt 0 (⟨[1], [7]⟩ : Grid Nat) p = valueAt 0 (⟨[1], [7]⟩ : Grid Nat) p) :=
  ⟨by decide, claim2_seed_stability ⟨[1], [0]⟩ ⟨[1], [7]⟩ false true 0 ⟨[1], [7]⟩ (by decide)⟩

/-- C6 (validation atomicity, amended reading in a pure model): mismatched
shapes fail with `ShapeMismatchError`, and an error is returned exactly for
the up-front validation failures — the shape mismatch and the dimension-zero
configuration error — decided purely from the input shapes before any
flooding; an error carries no output grid, so no label data is produced or
mutated. -/
theorem claim6_validation (elevG : Grid Int) (mk : Grid Nat) (fc ml : Bool) (bg : Nat) :
    (mk.shape ≠ elevG.shape →
      Flood elevG mk fc ml bg = Except.error FloodErr.shapeMismatch) ∧
    (∀ err, Flood elevG mk fc ml bg = Except.error err ↔
      (mk.shape ≠ elevG.shape ∧ err = FloodErr.shapeMismatch) ∨
      (mk.shape = elevG.shape ∧ elevG.shape.length = 0 ∧ err = FloodErr.configuration)) := by
  constructor
  · intro hne
    rw [Flood, if_pos hne]
  · intro err
    by_cases h1 : mk.shape ≠ elevG.shape
    · rw [Flood, if_pos h1]
      constructor
      · intro h
        exact Or.inl ⟨h1, (Except.error.inj h).symm⟩
      · rintro (⟨_, rfl⟩ | ⟨h2, _, _⟩)
        · rfl
        · exact absurd h2 h1
    · rw [Flood, if_neg h1]
      have h1' : mk.shape = elevG.shape := not_not.mp h1
      by_cases h2 : elevG.shape.length = 0
      · rw [if_pos h2]
        constructor
        · intro h
          exact Or.inr ⟨h1', h2, (Except.error.inj h).symm⟩
        · rintro (⟨hc, _⟩ | ⟨_, _, rfl⟩)
          · exact absurd h1' hc
          · rfl
      · rw [if_neg h2]
        constructor
        · intro h
          cases h
        · rintro (⟨hc, _⟩ | ⟨_, hc, _⟩)
          · exact absurd h1' hc
          · exact absurd hc h2

theorem claim6_witness :
    ((⟨[2], [0, 0]⟩ : Grid Nat).shape ≠ (⟨[1], [5]⟩ : Grid Int).shape) ∧
    Flood ⟨[1], [5]⟩ ⟨[2], [0, 0]⟩ true true 0 = Except.error FloodErr.shapeMismatch :=
  ⟨by decide,
    (claim6_validation ⟨[1], [5]⟩ ⟨[2], [0, 0]⟩ true true 0).1 (by decide)⟩

theorem flood_ok_intro (elevG : Grid Int) (mk : Grid Nat) (fc ml : Bool) (bg : Nat)
    (h1 : mk.shape = elevG.shape) (h2 : elevG.shape.length ≠ 0) :
    Flood elevG mk fc ml bg = Except.ok
      (extractGrid ⟨elevG.shape, fc, ml, bg, elevG⟩
        (drain ⟨elevG.shape, fc, ml, bg, elevG⟩
          ((initState ⟨elevG.shape, fc, ml, bg, elevG⟩ mk).queue.length +
            (allCoords elevG.shape).length)
          (initState ⟨elevG.shape, fc, ml, bg, elevG⟩ mk))) := by
  rw [Flood, if_neg (by rw [h1]; exact fun hc => hc rfl), if_neg h2]

/-- C4 (idempotence of relabeling, amended): with watershed-line marking
disabled, feeding the output of one flood back in as the marker image with
the unchanged elevation image reproduces exactly that output. -/
theorem claim4_idempotent_noline (elevG : Grid Int) (mk : Grid Nat) (fc : Bool)
    (bg : Nat) (out : Grid Nat) (h : Flood elevG mk fc false bg = Except.ok out) :
    Flood elevG out fc false bg = Except.ok out := by
  obtain ⟨t, hout, hInv, hq, _, hmsh⟩ := flood_terminal h
  obtain ⟨_, hdim, _⟩ := flood_ok_elim h
  have houts : out.shape = elevG.shape := by rw [hout]; rfl
  have hval : ∀ p ∈ allCoords elevG.shape, valueAt bg out p = t.labels p := by
    intro p hp
    rw [hout]
    exact valueAt_extractGrid bg hp
  have hcond : ∀ p, valueAt bg out p ≠ bg →
      ∀ q ∈ neighborsOf fc elevG.shape p, valueAt bg out q ≠ bg := by
    intro p hp q hqn
    have hpA : p ∈ allCoords elevG.shape := by
      rw [mem_allCoords, ← houts]
      exact valueAt_ne_bg_inb hp
    have hplab : t.st p = PixStatus.labeled := by
      refine labels_ne_bg_labeled hInv hq ?_
      rw [← hval p hpA]
      exact hp
    have hqA : q ∈ allCoords elevG.shape := neighborsOf_subset_allCoords hqn
    have hqnu := hInv.closure p (Or.inl hplab) q hqn
    have hqlab : t.st q = PixStatus.labeled := by
      cases hstq : t.st q with
      | labeled => rfl
      | unvisited => exact absurd hstq hqnu
      | queued =>
          exfalso
          obtain ⟨f, hf, _⟩ := (hInv.qinv.queued_iff q).mp hstq
          rw [hq] at hf
          cases hf
      | background => exact absurd hstq (hInv.no_bg rfl q)
    rw [hval q hqA]
    exact (hInv.lab_src q hqlab).1
  have hinit2 : initState ⟨elevG.shape, fc, false, bg, elevG⟩ out =
      initBase ⟨elevG.shape, fc, false, bg, elevG⟩ out := initState_noop hcond
  rw [flood_ok_intro elevG out fc false bg houts hdim]
  have hfinal : extractGrid ⟨elevG.shape, fc, false, bg, elevG⟩
      (initBase ⟨elevG.shape, fc, false, bg, elevG⟩ out) = out := by
    conv_rhs => rw [hout]
    rw [extractGrid, extractGrid]
    refine congrArg (Grid.mk _) ?_
    refine List.map_congr_left ?_
    intro p hp
    show valueAt bg out p = t.labels p
    exact hval p hp
  rw [hinit2, drain_empty _ _ rfl, hfinal]

theorem claim4_witness :
    Flood ⟨[1], [0]⟩ ⟨[1], [5]⟩ true false 0 = Except.ok ⟨[1], [5]⟩ ∧
    Flood ⟨[1], [0]⟩ ⟨[1], [5]⟩ true false 0 = Except.ok ⟨[1], [5]⟩ :=
  ⟨by decide, claim4_idempotent_noline ⟨[1], [0]⟩ ⟨[1], [5]⟩ true 0 ⟨[1], [5]⟩ (by decide)⟩

/-- C4 counterexample: with watershed-line marking enabled, idempotence
fails on a 3 by 3 grid — the first flood leaves the bottom row background
(pixels completed behind the watershed line with no labeled neighbor), and
the second flood relabels two of those pixels from the now-adjacent seeds. -/
theorem claim4_counterexample :
    Flood ⟨[3, 3], [7, 0, 7, 5, 1, 5, 4, 3, 4]⟩ ⟨[3, 3], [1, 0, 2, 0, 0, 0, 0, 0, 0]⟩
      false true 0 = Except.ok ⟨[3, 3], [1, 0, 2, 1, 0, 2, 0, 0, 0]⟩ ∧
    Flood ⟨[3, 3], [7, 0, 7, 5, 1, 5, 4, 3, 4]⟩ ⟨[3, 3], [1, 0, 2, 1, 0, 2, 0, 0, 0]⟩
      false true 0 ≠ Except.ok ⟨[3, 3], [1, 0, 2, 1, 0, 2, 0, 0, 0]⟩ := by
  constructor
  · decide
  · decide

/-- C5 (watershed-line toggle, amended): with line-marking enabled, every
pixel that is background in the *marker* image and is adjacent to two
differently labeled regions at flood completion carries the background value
(seed pixels themselves are exempt — they keep their marker label even when
wedged between foreign regions); with line-marking disabled, a background
output pixel lies in a connected component that contains no marker. -/
theorem claim5_watershed_toggle (elevG : Grid Int) (mk : Grid Nat) (fc ml : Bool)
    (bg : Nat) (out : Grid Nat) (h : Flood elevG mk fc ml bg = Except.ok out) :
    (ml = true → ∀ p ∈ allCoords elevG.shape, valueAt bg mk p = bg →
      ∀ q1 ∈ neighborsOf fc elevG.shape p, ∀ q2 ∈ neighborsOf fc elevG.shape p,
        valueAt bg out q1 ≠ bg → valueAt bg out q2 ≠ bg →
        valueAt bg out q1 ≠ valueAt bg out q2 → valueAt bg out p = bg) ∧
    (ml = false → ∀ p ∈ allCoords elevG.shape, valueAt bg out p = bg →
      ∀ q, Relation.ReflTransGen (fun a b => b ∈ neighborsOf fc elevG.shape a) p q →
        valueAt bg mk q = bg) := by
  obtain ⟨t, hout, hInv, hq, _, hmsh⟩ := flood_terminal h
  subst hout
  constructor
  · intro hml p hpA hmp q1 hq1 q2 hq2 hn1 hn2 hne
    by_contra hc
    have hq1A : q1 ∈ allCoords elevG.shape := neighborsOf_subset_allCoords hq1
    have hq2A : q2 ∈ allCoords elevG.shape := neighborsOf_subset_allCoords hq2
    rw [valueAt_extractGrid bg hpA] at hc
    rw [valueAt_extractGrid bg hq1A] at hn1 hne
    rw [valueAt_extractGrid bg hq2A] at hn2 hne
    have hplab := labels_ne_bg_labeled hInv hq hc
    have hq1lab := labels_ne_bg_labeled hInv hq hn1
    have hq2lab := labels_ne_bg_labeled hInv hq hn2
    have h1 := hInv.collide hml p hplab hmp q1 hq1 hq1lab
    have h2 := hInv.collide hml p hplab hmp q2 hq2 hq2lab
    rw [h1, h2] at hne
    exact hne rfl
  · intro hml p hpA hbg q hreach
    have hpunv : t.st p = PixStatus.unvisited := by
      rw [valueAt_extractGrid bg hpA] at hbg
      cases hstp : t.st p with
      | unvisited => rfl
      | labeled => exact absurd hbg (hInv.lab_src p hstp).1
      | background => exact absurd hstp (hInv.no_bg hml p)
      | queued =>
          exfalso
          obtain ⟨f, hf, _⟩ := (hInv.qinv.queued_iff p).mp hstp
          rw [hq] at hf
          cases hf
    have hstep : ∀ a b, a ∈ allCoords elevG.shape → t.st a = PixStatus.unvisited →
        b ∈ neighborsOf fc elevG.shape a →
        b ∈ allCoords elevG.shape ∧ t.st b = PixStatus.unvisited := by
      intro a b haA haU hab
      refine ⟨neighborsOf_subset_allCoords hab, ?_⟩
      cases hstb : t.st b with
      | unvisited => rfl
      | background => exact absurd hstb (hInv.no_bg hml b)
      | queued =>
          exfalso
          obtain ⟨f, hf, _⟩ := (hInv.qinv.queued_iff b).mp hstb
          rw [hq] at hf
          cases hf
      | labeled =>
          exfalso
          have hba : a ∈ neighborsOf fc elevG.shape b :=
            neighborsOf_symm (mem_allCoords.mp haA) hab
          exact hInv.closure b (Or.inl hstb) a hba haU
    have hmain : q ∈ allCoords elevG.shape ∧ t.st q = PixStatus.unvisited := by
      induction hreach with
      | refl => exact ⟨hpA, hpunv⟩
      | tail _ hbc ih => exact hstep _ _ ih.1 ih.2 hbc
    by_contra hcm
    have := (hInv.seed q hcm).1
    rw [hmain.2] at this
    cases this

theorem claim5_witness :
    Flood ⟨[1], [0]⟩ ⟨[1], [5]⟩ false true 0 = Except.ok ⟨[1], [5]⟩ ∧
    ((true = true → ∀ p ∈ allCoords (⟨[1], [0]⟩ : Grid Int).shape,
        valueAt 0 (⟨[1], [5]⟩ : Grid Nat) p = 0 →
        ∀ q1 ∈ neighborsOf false (⟨[1], [0]⟩ : Grid Int).shape p,
        ∀ q2 ∈ neighborsOf false (⟨[1], [0]⟩ : Grid Int).shape p,
          valueAt 0 (⟨[1], [5]⟩ : Grid Nat) q1 ≠ 0 →
          valueAt 0 (⟨[1], [5]⟩ : Grid Nat) q2 ≠ 0 →
          valueAt 0 (⟨[1], [5]⟩ : Grid Nat) q1 ≠ valueAt 0 (⟨[1], [5]⟩ : Grid Nat) q2 →
          valueAt 0 (⟨[1], [5]⟩ : Grid Nat) p = 0) ∧
     (true = false → ∀ p ∈ allCoords (⟨[1], [0]⟩ : Grid Int).shape,
        valueAt 0 (⟨[1], [5]⟩ : Grid Nat) p = 0 →
        ∀ q, Relation.ReflTransGen
            (fun a b => b ∈ neighborsOf false (⟨[1], [0]⟩ : Grid Int).shape a) p q →
          valueAt 0 (⟨[1], [5]⟩ : Grid Nat) q = 0)) :=
  ⟨by decide, claim5_watershed_toggle ⟨[1], [0]⟩ ⟨[1], [5]⟩ false true 0 ⟨[1], [5]⟩ (by decide)⟩

/-- C5 counterexample to the claim as stated: on an all-seed one-dimensional
image the middle seed pixel is adjacent to two differently labeled regions
at completion yet keeps its own non-background marker label. -/
theorem claim5_counterexample :
    Flood ⟨[3], [0, 0, 0]⟩ ⟨[3], [1, 3, 2]⟩ true true 0 = Except.ok ⟨[3], [1, 3, 2]⟩ ∧
    ([0] : Coord) ∈ neighborsOf true [3] ([1] : Coord) ∧
    ([2] : Coord) ∈ neighborsOf true [3] ([1] : Coord) ∧
    valueAt 0 (⟨[3], [1, 3, 2]⟩ : Grid Nat) ([0] : Coord) ≠ 0 ∧
    valueAt 0 (⟨[3], [1, 3, 2]⟩ : Grid Nat) ([2] : Coord) ≠ 0 ∧
    valueAt 0 (⟨[3], [1, 3, 2]⟩ : Grid Nat) ([0] : Coord) ≠
      valueAt 0 (⟨[3], [1, 3, 2]⟩ : Grid Nat) ([2] : Coord) ∧
    valueAt 0 (⟨[3], [1, 3, 2]⟩ : Grid Nat) ([1] : Coord) ≠ 0 := by
  decide

/-- C7 (ordered frontier, amended): every drain step extracts a queue entry
that is minimal for the (elevation, insertion order) key and appends it to
the processing log, and when it is extracted every strictly lower pixel
adjacent to the already-labeled region has already been processed.  The
further assertion of the claim — that the processing order is globally
non-decreasing in elevation — is refuted separately. -/
theorem claim7_monotone_frontier (elevG : Grid Int) (mk : Grid Nat) (fc ml : Bool)
    (bg : Nat) (s s' : FState) (hmsh : mk.shape = elevG.shape)
    (hr : Reach ⟨elevG.shape, fc, ml, bg, elevG⟩
      (initState ⟨elevG.shape, fc, ml, bg, elevG⟩ mk) s)
    (hst : StepD ⟨elevG.shape, fc, ml, bg, elevG⟩ s s') :
    ∃ e, IsMinEntry s.queue e ∧ s'.log = s.log ++ [e] ∧
      ∀ q ∈ allCoords elevG.shape, elevAt elevG q < e.elev →
        (∃ r, s.st r = PixStatus.labeled ∧ q ∈ neighborsOf fc elevG.shape r) →
        s.st q = PixStatus.labeled ∨ s.st q = PixStatus.background := by
  have hInv := reach_inv (@initState_inv ⟨elevG.shape, fc, ml, bg, elevG⟩ mk hmsh).1 hr
  obtain ⟨_, e, hmin, _, hSF⟩ := stepD_elim hInv hst
  refine ⟨e, hmin, hSF.log_eq, ?_⟩
  rintro q _ hqe ⟨r, hrl, hqr⟩
  cases hstq : s.st q with
  | labeled => exact Or.inl rfl
  | background => exact Or.inr rfl
  | unvisited => exact absurd hstq (hInv.closure r (Or.inl hrl) q hqr)
  | queued =>
      exfalso
      obtain ⟨f, hf, hfp⟩ := (hInv.qinv.queued_iff q).mp hstq
      have hfe := (hInv.qinv.q_elev f hf).1
      rw [hfp] at hfe
      have hfe2 : f.elev = elevAt elevG q := hfe
      have hle := hmin.2 f hf
      rcases hle with hlt | ⟨heq, _⟩
      · rw [hfe2] at hlt
        omega
      · rw [hfe2] at heq
        omega

theorem claim7_witness :
    ((⟨[2], [1, 0]⟩ : Grid Nat).shape = (⟨[2], [0, 0]⟩ : Grid Int).shape) ∧
    StepD ⟨[2], true, false, 0, ⟨[2], [0, 0]⟩⟩
      (initState ⟨[2], true, false, 0, ⟨[2], [0, 0]⟩⟩ ⟨[2], [1, 0]⟩)
      (processEntry ⟨[2], true, false, 0, ⟨[2], [0, 0]⟩⟩
        (initState ⟨[2], true, false, 0, ⟨[2], [0, 0]⟩⟩ ⟨[2], [1, 0]⟩)
        ⟨0, 0, [1]⟩) ∧
    (∃ e, IsMinEntry (initState ⟨[2], true, false, 0, ⟨[2], [0, 0]⟩⟩ ⟨[2], [1, 0]⟩).queue e ∧
      (processEntry ⟨[2], true, false, 0, ⟨[2], [0, 0]⟩⟩
        (initState ⟨[2], true, false, 0, ⟨[2], [0, 0]⟩⟩ ⟨[2], [1, 0]⟩) ⟨0, 0, [1]⟩).log =
        (initState ⟨[2], true, false, 0, ⟨[2], [0, 0]⟩⟩ ⟨[2], [1, 0]⟩).log ++ [e] ∧
      ∀ q ∈ allCoords (⟨[2], [0, 0]⟩ : Grid Int).shape,
        elevAt ⟨[2], [0, 0]⟩ q < e.elev →
        (∃ r, (initState ⟨[2], true, false, 0, ⟨[2], [0, 0]⟩⟩ ⟨[2], [1, 0]⟩).st r =
            PixStatus.labeled ∧ q ∈ neighborsOf true (⟨[2], [0, 0]⟩ : Grid Int).shape r) →
        (initState ⟨[2], true, false, 0, ⟨[2], [0, 0]⟩⟩ ⟨[2], [1, 0]⟩).st q =
          PixStatus.labeled ∨
        (initState ⟨[2], true, false, 0, ⟨[2], [0, 0]⟩⟩ ⟨[2], [1, 0]⟩).st q =
          PixStatus.background) :=
  ⟨rfl, rfl,
    claim7_monotone_frontier ⟨[2], [0, 0]⟩ ⟨[2], [1, 0]⟩ true false 0 _ _ rfl
      Relation.ReflTransGen.refl rfl⟩

/-- C7 counterexample to the claim as stated: a run whose extraction log has
elevations 5 then 1 — the processing order is not non-decreasing in
elevation, because a later-queued pixel may sit below the current minimum. -/
theorem claim7_counterexample :
    ((drain ⟨[3], true, false, 0, ⟨[3], [0, 5, 1]⟩⟩
        ((initState ⟨[3], true, false, 0, ⟨[3], [0, 5, 1]⟩⟩ ⟨[3], [1, 0, 0]⟩).queue.length +
          (allCoords [3]).length)
        (initState ⟨[3], true, false, 0, ⟨[3], [0, 5, 1]⟩⟩ ⟨[3], [1, 0, 0]⟩)).log.map
      QEntry.elev = [5, 1]) ∧
    ¬ List.Pairwise (fun a b => a ≤ b)
      ((drain ⟨[3], true, false, 0, ⟨[3], [0, 5, 1]⟩⟩
        ((initState ⟨[3], true, false, 0, ⟨[3], [0, 5, 1]⟩⟩ ⟨[3], [1, 0, 0]⟩).queue.length +
          (allCoords [3]).length)
        (initState ⟨[3], true, false, 0, ⟨[3], [0, 5, 1]⟩⟩ ⟨[3], [1, 0, 0]⟩)).log.map
        QEntry.elev) := by
  decide

/-- C8 (label-assignment state machine, amended): along every drain step a
pixel either keeps its status, moves `Unvisited` to `Queued`, or moves
`Queued` to `Labeled` or `Background`; `Labeled` keeps its exact label and
`Background` keeps the background value (both terminal).  Seed pixels,
however, are set to `Labeled` directly by the initialization, without ever
being `Queued` — refuted separately for the claim as stated. -/
theorem claim8_state_machine (elevG : Grid Int) (mk : Grid Nat) (fc ml : Bool)
    (bg : Nat) (s s' : FState) (hmsh : mk.shape = elevG.shape)
    (hr : Reach ⟨elevG.shape, fc, ml, bg, elevG⟩
      (initState ⟨elevG.shape, fc, ml, bg, elevG⟩ mk) s)
    (hst : StepD ⟨elevG.shape, fc, ml, bg, elevG⟩ s s') :
    (∀ p, s'.st p = s.st p ∨
      (s.st p = PixStatus.unvisited ∧ s'.st p = PixStatus.queued) ∨
      (s.st p = PixStatus.queued ∧
        (s'.st p = PixStatus.labeled ∨ s'.st p = PixStatus.background))) ∧
    (∀ p, s.st p = PixStatus.labeled →
      s'.st p = PixStatus.labeled ∧ s'.labels p = s.labels p) ∧
    (∀ p, s.st p = PixStatus.background →
      s'.st p = PixStatus.background ∧ s'.labels p = bg) ∧
    (∀ p, (initState ⟨elevG.shape, fc, ml, bg, elevG⟩ mk).st p = PixStatus.labeled ↔
      valueAt bg mk p ≠ bg) := by
  have hInit := @initState_inv ⟨elevG.shape, fc, ml, bg, elevG⟩ mk hmsh
  have hInv := reach_inv hInit.1 hr
  obtain ⟨_, e, _, _, hSF⟩ := stepD_elim hInv hst
  refine ⟨?_, hSF.lab_keep, ?_, hInit.2.2.1⟩
  · intro p
    rcases hSF.forward p with h | h | ⟨_, h1, h2⟩
    · exact Or.inl h
    · exact Or.inr (Or.inl h)
    · exact Or.inr (Or.inr ⟨h1, h2⟩)
  · intro p hp
    obtain ⟨h1, h2⟩ := hSF.bg_keep p hp
    refine ⟨h1, ?_⟩
    rw [h2]
    exact hInv.bg_lab p hp

theorem claim8_witness :
    ((⟨[2], [1, 0]⟩ : Grid Nat).shape = (⟨[2], [0, 7]⟩ : Grid Int).shape) ∧
    StepD ⟨[2], false, true, 0, ⟨[2], [0, 7]⟩⟩
      (initState ⟨[2], false, true, 0, ⟨[2], [0, 7]⟩⟩ ⟨[2], [1, 0]⟩)
      (processEntry ⟨[2], false, true, 0, ⟨[2], [0, 7]⟩⟩
        (initState ⟨[2], false, true, 0, ⟨[2], [0, 7]⟩⟩ ⟨[2], [1, 0]⟩) ⟨7, 0, [1]⟩) ∧
    (∀ p, (initState ⟨[2], false, true, 0, ⟨[2], [0, 7]⟩⟩ ⟨[2], [1, 0]⟩).st p =
        PixStatus.labeled ↔ valueAt 0 (⟨[2], [1, 0]⟩ : Grid Nat) p ≠ 0) :=
  ⟨rfl, rfl,
    (claim8_state_machine ⟨[2], [0, 7]⟩ ⟨[2], [1, 0]⟩ false true 0 _ _ rfl
      Relation.ReflTransGen.refl rfl).2.2.2⟩

/-- C8 counterexample to the claim as stated: a seed pixel ends `Labeled`
although it was never inserted into the queue, so it did not pass through
the `Queued` state demanded by the claimed per-pixel path. -/
theorem claim8_counterexample :
    (drain ⟨[1], true, false, 0, ⟨[1], [0]⟩⟩
        ((initState ⟨[1], true, false, 0, ⟨[1], [0]⟩⟩ ⟨[1], [7]⟩).queue.length +
          (allCoords [1]).length)
        (initState ⟨[1], true, false, 0, ⟨[1], [0]⟩⟩ ⟨[1], [7]⟩)).st ([0] : Coord) =
      PixStatus.labeled ∧
    (drain ⟨[1], true, false, 0, ⟨[1], [0]⟩⟩
        ((initState ⟨[1], true, false, 0, ⟨[1], [0]⟩⟩ ⟨[1], [7]⟩).queue.length +
          (allCoords [1]).length)
        (initState ⟨[1], true, false, 0, ⟨[1], [0]⟩⟩ ⟨[1], [7]⟩)).everQ ([0] : Coord) =
      false := by
  decide

/-- The drain transition as the spec states it: extract any entry that is
minimal for the (elevation, insertion order) key and process it.  Because
insertion counters in the queue are pairwise distinct, this relation is
deterministic, which is what makes the scheduler reproducible. -/
def StepR (ctx : Ctx) (s s' : FState) : Prop :=
  ∃ e, IsMinEntry s.queue e ∧ s' = processEntry ctx s e

theorem stepR_det {ctx : Ctx} {s s1 s2 : FState}
    (hq : s.queue.Pairwise (fun a b => a.ctr ≠ b.ctr))
    (h1 : StepR ctx s s1) (h2 : StepR ctx s s2) : s1 = s2 := by
  obtain ⟨e1, he1, rfl⟩ := h1
  obtain ⟨e2, he2, rfl⟩ := h2
  rw [isMinEntry_unique hq he1 he2]

theorem stepR_inv {ctx : Ctx} {m : Grid Nat} {s s' : FState}
    (hInv : Inv ctx m s) (h : StepR ctx s s') : Inv ctx m s' := by
  obtain ⟨e, he, rfl⟩ := h
  exact (processEntry_spec hInv he.1).1

theorem stepD_to_stepR {ctx : Ctx} {s s' : FState} (h : StepD ctx s s') :
    StepR ctx s s' := by
  rw [StepD, step] at h
  cases hsel : selectMin s.queue with
  | none => rw [hsel] at h; cases h
  | some e =>
      rw [hsel] at h
      exact ⟨e, selectMin_spec hsel, by simpa using h.symm⟩

theorem stepR_unique_terminal {ctx : Ctx} {m : Grid Nat} {s t1 : FState}
    (h1 : Relation.ReflTransGen (StepR ctx) s t1) :
    Inv ctx m s → t1.queue = [] → ∀ t2, Relation.ReflTransGen (StepR ctx) s t2 →
    t2.queue = [] → t1 = t2 := by
  induction h1 using Relation.ReflTransGen.head_induction_on with
  | refl =>
      intro _ hq1 t2 h2 _
      rcases Relation.ReflTransGen.cases_head h2 with rfl | ⟨c, hc, _⟩
      · rfl
      · obtain ⟨e, he, _⟩ := hc
        rw [hq1] at he
        cases he.1
  | head h' hrest ih =>
      intro hInv hq1 t2 h2 hq2
      rcases Relation.ReflTransGen.cases_head h2 with rfl | ⟨c2, hc2, hrest2⟩
      · obtain ⟨e, he, _⟩ := h'
        rw [hq2] at he
        cases he.1
      · have hcc := stepR_det hInv.qinv.q_ctr h' hc2
        subst hcc
        exact ih (stepR_inv hInv h') hq1 t2 hrest2 hq2

/-- C3 (determinism): from a fixed marker seeding in raster order, any two
complete executions of the scheduler — each step extracting an arbitrary
entry minimal for the (elevation, insertion order) key — end in the same
state and hence produce bit-identical output label grids.  The insertion
counters in the queue are pairwise distinct, so the minimal entry, and with
it every run, is unique. -/
theorem claim3_determinism (elevG : Grid Int) (mk : Grid Nat) (fc ml : Bool) (bg : Nat)
    (t1 t2 : FState) (hmsh : mk.shape = elevG.shape)
    (h1 : Relation.ReflTransGen (StepR ⟨elevG.shape, fc, ml, bg, elevG⟩)
      (initState ⟨elevG.shape, fc, ml, bg, elevG⟩ mk) t1)
    (hq1 : t1.queue = [])
    (h2 : Relation.ReflTransGen (StepR ⟨elevG.shape, fc, ml, bg, elevG⟩)
      (initState ⟨elevG.shape, fc, ml, bg, elevG⟩ mk) t2)
    (hq2 : t2.queue = []) :
    t1 = t2 ∧ extractGrid ⟨elevG.shape, fc, ml, bg, elevG⟩ t1 =
      extractGrid ⟨elevG.shape, fc, ml, bg, elevG⟩ t2 := by
  have heq := stepR_unique_terminal h1
    (@initState_inv ⟨elevG.shape, fc, ml, bg, elevG⟩ mk hmsh).1 hq1 t2 h2 hq2
  exact ⟨heq, by rw [heq]⟩

theorem claim3_witness :
    ((⟨[1], [5]⟩ : Grid Nat).shape = (⟨[1], [0]⟩ : Grid Int).shape) ∧
    (initState ⟨[1], true, true, 0, ⟨[1], [0]⟩⟩ ⟨[1], [5]⟩).queue = [] ∧
    (initState ⟨[1], true, true, 0, ⟨[1], [0]⟩⟩ ⟨[1], [5]⟩ =
      initState ⟨[1], true, true, 0, ⟨[1], [0]⟩⟩ ⟨[1], [5]⟩ ∧
     extractGrid ⟨[1], true, true, 0, ⟨[1], [0]⟩⟩
        (initState ⟨[1], true, true, 0, ⟨[1], [0]⟩⟩ ⟨[1], [5]⟩) =
      extractGrid ⟨[1], true, true, 0, ⟨[1], [0]⟩⟩
        (initState ⟨[1], true, true, 0, ⟨[1], [0]⟩⟩ ⟨[1], [5]⟩)) :=
  ⟨rfl, rfl,
    claim3_determinism ⟨[1], [0]⟩ ⟨[1], [5]⟩ true true 0 _ _ rfl
      Relation.ReflTransGen.refl rfl Relation.ReflTransGen.refl rfl⟩

/-- Modelled from the spec: the connectivity descriptor of the filter holds
the face-versus-full flag (spec section 3); `itkConnectivity.h` itself is
not among the sources.  The image dimension is carried alongside. -/
structure Connectivity where
  dim : Nat
  fullyConnected : Bool
deriving DecidableEq

/-- Modelled from the spec: the cell dimension of the connectivity — `0`
under full connectivity and `d - 1` under face connectivity — the quantity
`SetFullyConnected` in the header compares to decide whether the filter
changed. -/
def cellDimension (c : Connectivity) : Nat :=
  if c.fullyConnected then 0 else c.dim - 1

/-- The filter state relevant to `SetFullyConnected`: its connectivity
object and a modification counter standing for the `Modified()` time stamp
(`itkMorphologicalWatershedFromMarkersImageFilter.h`). -/
structure WatershedFilter where
  conn : Connectivity
  mtime : Nat
deriving DecidableEq

/-- Translated from `SetFullyConnected` in
`itkMorphologicalWatershedFromMarkersImageFilter.h` (lines 100-108): read
the old cell dimension, update the connectivity's fully-connected flag
unconditionally, and call `Modified()` exactly when the cell dimension
changed. -/
def SetFullyConnected (f : WatershedFilter) (value : Bool) : WatershedFilter :=
  let oldCellDimension := cellDimension f.conn
  let conn2 : Connectivity := { f.conn with fullyConnected := value }
  if oldCellDimension ≠ cellDimension conn2 then
    { f with conn := conn2, mtime := f.mtime + 1 }
  else
    { f with conn := conn2 }

/-- Translated from `GetFullyConnected` in the same header. -/
def GetFullyConnected (f : WatershedFilter) : Bool := f.conn.fullyConnected

/-- C9: `SetFullyConnected` always updates the connectivity object's
fully-connected flag; it bumps the filter's modification time exactly when
the connectivity's cell dimension changed; and calling it with the
currently effective value leaves the whole filter — in particular its
modification state — unchanged. -/
theorem claim9_set_fully_connected (f : WatershedFilter) (v : Bool) :
    GetFullyConnected (SetFullyConnected f v) = v ∧
    ((SetFullyConnected f v).mtime = f.mtime + 1 ↔
      cellDimension f.conn ≠ cellDimension { f.conn with fullyConnected := v }) ∧
    ((SetFullyConnected f v).mtime = f.mtime ↔
      cellDimension f.conn = cellDimension { f.conn with fullyConnected := v }) ∧
    (v = f.conn.fullyConnected → SetFullyConnected f v = f) := by
  by_cases hc : cellDimension f.conn ≠ cellDimension { f.conn with fullyConnected := v }
  · have hset : SetFullyConnected f v =
        { f with conn := { f.conn with fullyConnected := v }, mtime := f.mtime + 1 } := by
      simp only [SetFullyConnected, if_pos hc]
    refine ⟨by rw [hset]; rfl, ?_, ?_, ?_⟩
    · rw [hset]
      exact ⟨fun _ => hc, fun _ => rfl⟩
    · rw [hset]
      constructor
      · intro h
        exact absurd h (by simp)
      · intro h
        exact absurd h hc
    · intro hv
      exfalso
      apply hc
      rw [hv]
  · have hc' := not_not.mp hc
    have hset : SetFullyConnected f v =
        { f with conn := { f.conn with fullyConnected := v } } := by
      simp only [SetFullyConnected, if_neg hc]
    refine ⟨by rw [hset]; rfl, ?_, ?_, ?_⟩
    · rw [hset]
      constructor
      · intro h
        exact absurd h (by simp)
      · intro h
        exact absurd hc' h
    · rw [hset]
      exact ⟨fun _ => hc', fun _ => rfl⟩
    · intro hv
      rw [hset, hv]

/-- Translated from `src/splitCells.cxx`: a location is a 3-D integer
index. -/
abbrev Loc := Int × Int × Int

/-- Translated from `findBiggest` in `src/splitCells.cxx` (lines 80-94):
scan the vector of neighborhood sets, tracking the size and the index of
the largest one; both trackers start at `-1`, so an empty vector yields
`-1`. -/
def findBiggest (N : List (Finset Loc)) : Int :=
  ((N.enum).foldl
    (fun acc ie => if ((ie.2.card : Int)) > acc.1 then (((ie.2.card : Int)), ((ie.1 : Int))) else acc)
    ((-1 : Int), (-1 : Int))).2

/-- C10: on an empty candidate list — reachable in `findMarker` whenever no
slice object exceeds the 5000-voxel volume threshold — `findBiggest` returns
`-1`, which is not a valid index into `Neighbours`, yet the selection loop
in `findMarker` (lines 184-186) reads `Neighbours[best]` and `LVec[best]`
with it unconditionally. -/
theorem claim10_findBiggest_empty :
    findBiggest [] = -1 ∧
    ¬ (0 ≤ findBiggest [] ∧ (findBiggest []).toNat < ([] : List (Finset Loc)).length) := by
  refine ⟨rfl, ?_⟩
  decide

theorem claim9_witness :
    (false = (⟨⟨2, false⟩, 0⟩ : WatershedFilter).conn.fullyConnected) ∧
    (GetFullyConnected (SetFullyConnected ⟨⟨2, false⟩, 0⟩ false) = false ∧
     ((SetFullyConnected (⟨⟨2, false⟩, 0⟩ : WatershedFilter) false).mtime = 0 + 1 ↔
       cellDimension (⟨2, false⟩ : Connectivity) ≠
         cellDimension { (⟨2, false⟩ : Connectivity) with fullyConnected := false }) ∧
     ((SetFullyConnected (⟨⟨2, false⟩, 0⟩ : WatershedFilter) false).mtime = 0 ↔
       cellDimension (⟨2, false⟩ : Connectivity) =
         cellDimension { (⟨2, false⟩ : Connectivity) with fullyConnected := false }) ∧
     (false = (⟨2, false⟩ : Connectivity).fullyConnected →
       SetFullyConnected (⟨⟨2, false⟩, 0⟩ : WatershedFilter) false = ⟨⟨2, false⟩, 0⟩)) :=
  ⟨rfl, claim9_set_fully_connected ⟨⟨2, false⟩, 0⟩ false⟩
